import Mathlib

/-!
Formal model of the card-sorting analysis engine (`src/lib/analysis.ts`).

Modelling conventions:
* JavaScript numbers are modelled as rationals (`ℚ`); the analysis only ever
  produces ratios of small integers, averages and halvings.
* `Date.now()` is modelled as an explicit clock parameter `now : Nat`, held
  constant for the duration of one call.
* JS `Map` is modelled as an insertion-ordered association list (`upsert`
  updates in place, inserts at the end); JS `Set` as a duplicate-free list in
  insertion order (`addSet`).
* Out-of-range array reads (which in JS yield `undefined` and subsequently
  `NaN` arithmetic) are modelled by total `getD`/`mget` reads with default `0`;
  all theorems whose truth depends on in-range access carry explicit
  well-formedness hypotheses.
* The one genuine crash (`clusters[0]` being `undefined` for an empty matrix,
  then dereferenced in `buildDendrogramTree`) is modelled by an `Option`
  result: `none` stands for the thrown `TypeError`.
-/

namespace CardSort


/-- `Card` from `types/index.ts` (the optional `description` plays no role in the analysis). -/
structure Card where
  id : String
  label : String
deriving DecidableEq, Repr

/-- `CardPlacement` from `types/results.ts` (the fields the analysis reads). -/
structure CardPlacement where
  cardId : String
  categoryId : String
  categoryName : String
deriving DecidableEq, Repr

/-- `Category` from `types/index.ts` (the fields the analysis reads). -/
structure Category where
  id : String
  name : String
deriving DecidableEq, Repr

/-- `Participant` from `types/results.ts` (the fields the analysis reads).
`completedAt` is `null`able, `duration` is `null`able. -/
structure Participant where
  completedAt : Option Nat
  duration : Option ℚ
deriving DecidableEq, Repr

/-- `SortingSession` from `types/results.ts` (the fields the analysis reads). -/
structure SortingSession where
  participant : Participant
  cards : List Card
  categories : List Category
  placements : List CardPlacement
deriving DecidableEq, Repr

/-- `SimilarityMatrix` from `types/results.ts`. -/
structure SimilarityMatrix where
  cardIds : List String
  cardLabels : List String
  matrix : List (List ℚ)
  participantCount : Nat
deriving DecidableEq, Repr

/-- JS `Map.set` on an insertion-ordered association list: update the existing
entry in place, otherwise append at the end. `f` receives the present value. -/
def upsert [DecidableEq α] (k : α) (f : Option β → β) : List (α × β) → List (α × β)
  | [] => [(k, f none)]
  | (a, b) :: t => if a = k then (a, f (some b)) :: t else (a, b) :: upsert k f t

/-- JS `Set.add`: append if absent, keep insertion order. -/
def addSet [DecidableEq α] (s : List α) (x : α) : List α :=
  if x ∈ s then s else s ++ [x]

/-- All pairs `(l[i], l[j])` with `i < j`, in the order of the source's nested
`for` loops (outer index ascending, inner index ascending). -/
def upairs : List α → List (α × α)
  | [] => []
  | x :: t => t.map (fun y => (x, y)) ++ upairs t

/-- `m[i][j]` on a matrix stored as a list of rows, out-of-range reads giving 0. -/
def mget (m : List (List ℚ)) (i j : Nat) : ℚ := (m.getD i []).getD j 0

/-- The `categoryId → Set of cardIds` map built per session (analysis.ts 42-49). -/
def categoryCards (placements : List CardPlacement) : List (String × List String) :=
  placements.foldl
    (fun m p => upsert p.categoryId (fun o => addSet (o.getD []) p.cardId) m) []

/-- The ordered pairs `(idxA, idxB)` for which one session increments
`coOccurrences[idxA][idxB]` and `coOccurrences[idxB][idxA]` (analysis.ts 52-64);
pairs with an unknown card (`indexOf` returning `-1`) are skipped. -/
def sessionEvents (cardIds : List String) (s : SortingSession) : List (Nat × Nat) :=
  (categoryCards s.placements).flatMap (fun e =>
    (upairs e.2).filterMap (fun ab =>
      if ab.1 ∈ cardIds ∧ ab.2 ∈ cardIds then
        some (cardIds.indexOf ab.1, cardIds.indexOf ab.2)
      else none))

/-- Final value of the `coOccurrences[p][q]` counter after all sessions: each
event `(idxA, idxB)` bumps cell `(idxA, idxB)` and cell `(idxB, idxA)`. -/
def coOcc (sessions : List SortingSession) (cardIds : List String) (p q : Nat) : Nat :=
  (sessions.map (fun s =>
    (sessionEvents cardIds s).countP (fun e => e == (p, q)) +
    (sessionEvents cardIds s).countP (fun e => e == (q, p)))).sum

/-- `computeSimilarityMatrix` (analysis.ts 28-84): co-occurrence counts divided
by participant count (0 when there are no participants), diagonal forced to 1. -/
def computeSimilarityMatrix (sessions : List SortingSession) (cards : List Card) :
    SimilarityMatrix :=
  let n := cards.length
  let cardIds := cards.map (·.id)
  let participantCount := sessions.length
  { cardIds := cardIds
    cardLabels := cards.map (·.label)
    matrix := (List.range n).map (fun i => (List.range n).map (fun j =>
      if i = j then 1
      else if 0 < participantCount then (coOcc sessions cardIds i j : ℚ) / participantCount
      else 0))
    participantCount := participantCount }

/-- `SimilarityCell` from `types/results.ts`, with the two card records inlined. -/
structure SimilarityCell where
  cardAId : String
  cardALabel : String
  cardBId : String
  cardBLabel : String
  coOccurrences : Int
  totalPairings : Nat
  similarity : ℚ
deriving DecidableEq, Repr

/-- JS `Math.round`: round half away from zero toward positive infinity. -/
def jsRound (x : ℚ) : Int := ⌊x + 1/2⌋

/-- Index pairs `(i, j)` with `i < j < n` in row-major scan order, as visited by
the nested loops of the source. -/
def pairList (n : Nat) : List (Nat × Nat) :=
  (List.range n).flatMap (fun i =>
    ((List.range n).filter (fun j => decide (i < j))).map (fun j => (i, j)))

/-- `getSimilarityCells` (analysis.ts 89-109): one cell per unordered pair,
sorted by similarity descending (JS `sort` is stable; so is `mergeSort`). -/
def getSimilarityCells (sm : SimilarityMatrix) : List SimilarityCell :=
  let cells := (pairList sm.cardIds.length).map (fun ij =>
    { cardAId := sm.cardIds.getD ij.1 ""
      cardALabel := sm.cardLabels.getD ij.1 ""
      cardBId := sm.cardIds.getD ij.2 ""
      cardBLabel := sm.cardLabels.getD ij.2 ""
      coOccurrences := jsRound (mget sm.matrix ij.1 ij.2 * sm.participantCount)
      totalPairings := sm.participantCount
      similarity := mget sm.matrix ij.1 ij.2 : SimilarityCell })
  cells.mergeSort (fun a b => decide (b.similarity ≤ a.similarity))

/-- The internal `ClusterNode` of analysis.ts (115-120): a singleton cluster
(`children` absent) or a merge of two clusters (`children` a 2-element array). -/
inductive ClusterNode where
  | single (id : String) (items : List String) (distance : ℚ)
  | merge (id : String) (items : List String) (left right : ClusterNode) (distance : ℚ)
deriving DecidableEq, Repr

instance : Inhabited ClusterNode := ⟨.single "" [] 0⟩

/-- The `id` field of a `ClusterNode`. -/
def ClusterNode.cid : ClusterNode → String
  | .single i _ _ => i
  | .merge i _ _ _ _ => i

/-- The `items` field of a `ClusterNode`. -/
def ClusterNode.items : ClusterNode → List String
  | .single _ it _ => it
  | .merge _ it _ _ _ => it

/-- `DendrogramNode` from `types/results.ts`, restricted to the shapes the
program constructs: leaves carry `cardId` and `value = 0`, internal nodes carry
exactly the two merged children (analysis.ts 229-251 always maps a 2-element
`children` array). -/
inductive DendrogramNode where
  | leaf (id name cardId : String) (value : ℚ)
  | node (id name : String) (left right : DendrogramNode) (value : ℚ)
deriving DecidableEq, Repr

/-- `cardId`s of the leaves of a dendrogram, left to right. -/
def DendrogramNode.leafIds : DendrogramNode → List String
  | .leaf _ _ c _ => [c]
  | .node _ _ l r _ => l.leafIds ++ r.leafIds

/-- Number of internal (merge) nodes of a dendrogram. -/
def DendrogramNode.internalCount : DendrogramNode → Nat
  | .leaf _ _ _ _ => 0
  | .node _ _ l r _ => l.internalCount + r.internalCount + 1

/-- One record of the `mergeHistory` array (analysis.ts 147). -/
structure MergeRec where
  merged : Nat × Nat
  distance : ℚ
  newCluster : ClusterNode
deriving DecidableEq, Repr

/-- State of the agglomerative loop: current clusters, current distance matrix,
merge history so far. -/
structure ClusterState where
  clusters : List ClusterNode
  dist : List (List ℚ)
  history : List MergeRec
deriving DecidableEq, Repr

/-- `Infinity`-seeded strict comparison: everything is below the initial
`minDist = Infinity` (modelled as `none`). -/
def ltOpt (x : ℚ) : Option ℚ → Bool
  | none => true
  | some m => decide (x < m)

/-- The minimum-distance scan (analysis.ts 151-164): row-major fold starting at
`(minI, minJ) = (0, 1)`, `minDist = Infinity`; strict `<` keeps the first
minimum found. Returns the selected pair and the found minimum (`none` only
when no pair was scanned). -/
def findMinPair (d : List (List ℚ)) (n : Nat) : (Nat × Nat) × Option ℚ :=
  (pairList n).foldl
    (fun acc p =>
      if ltOpt (mget d p.1 p.2) acc.2 then (p, some (mget d p.1 p.2)) else acc)
    ((0, 1), none)

/-- The indices kept by `filter((_, idx) => idx !== i && idx !== j)`. -/
def keptIdxs (n i j : Nat) : List Nat :=
  (List.range n).filter (fun k => decide (k ≠ i ∧ k ≠ j))

/-- `arr.filter((_, idx) => idx !== i && idx !== j)`. -/
def removeTwo (l : List α) (i j : Nat) : List α :=
  (keptIdxs l.length i j).filterMap (fun k => l[k]?)

/-- The generated id `cluster-${clusters.length}-${Date.now()}` (analysis.ts 168). -/
def mkClusterId (len now : Nat) : String :=
  "cluster-" ++ toString len ++ "-" ++ toString now

/-- The `(minI, minJ)` pair the scan of one loop iteration selects. -/
def stepPair (st : ClusterState) : Nat × Nat :=
  (findMinPair st.dist st.clusters.length).1

/-- The `minDist` of one loop iteration (equal to the scan's found minimum
whenever the loop guard `clusters.length > 1` holds, see `findMinPair_spec`). -/
def stepMin (st : ClusterState) : ℚ :=
  mget st.dist (stepPair st).1 (stepPair st).2

/-- The indices of the clusters kept by one merge (all but `minI`, `minJ`). -/
def stepKept (st : ClusterState) : List Nat :=
  keptIdxs st.clusters.length (stepPair st).1 (stepPair st).2

/-- The `newCluster` object of one merge (analysis.ts 167-172). -/
def stepNewCluster (now : Nat) (st : ClusterState) : ClusterNode :=
  .merge (mkClusterId st.clusters.length now)
    ((st.clusters.getD (stepPair st).1 default).items ++
      (st.clusters.getD (stepPair st).2 default).items)
    (st.clusters.getD (stepPair st).1 default)
    (st.clusters.getD (stepPair st).2 default)
    (stepMin st)

/-- One iteration of the merge loop (analysis.ts 150-215): select the minimum
pair, merge, record, and rebuild the distance matrix.  Each kept row keeps its
kept columns and gains the unweighted average `(dist[minI][k] + dist[minJ][k])/2`
as its last column; the appended row holds those averages plus a `0` diagonal. -/
def clusterStep (now : Nat) (st : ClusterState) : ClusterState :=
  { clusters := removeTwo st.clusters (stepPair st).1 (stepPair st).2 ++
      [stepNewCluster now st]
    dist := (stepKept st).map (fun a =>
        (stepKept st).map (fun b => mget st.dist a b) ++
          [(mget st.dist (stepPair st).1 a + mget st.dist (stepPair st).2 a) / 2]) ++
      [(stepKept st).map (fun k =>
          (mget st.dist (stepPair st).1 k + mget st.dist (stepPair st).2 k) / 2) ++ [0]]
    history := st.history ++ [⟨stepPair st, stepMin st, stepNewCluster now st⟩] }

/-- The `while (clusters.length > 1)` loop, fuelled (`fuel = n` always
suffices: every iteration removes two clusters and adds one). -/
def clusterIter (now : Nat) : Nat → ClusterState → ClusterState
  | 0, st => st
  | fuel + 1, st =>
      if st.clusters.length ≤ 1 then st else clusterIter now fuel (clusterStep now st)

/-- The initial state (analysis.ts 131-147): singleton clusters in card order,
distance matrix `1 - similarity`, empty history. -/
def initialState (sm : SimilarityMatrix) : ClusterState :=
  { clusters := sm.cardIds.map (fun id => ClusterNode.single id [id] 0)
    dist := sm.matrix.map (fun row => row.map (fun s => 1 - s))
    history := [] }

/-- `buildDendrogramTree` (analysis.ts 229-251): leaves look up their label via
`indexOf` (falling back to the id when absent); internal nodes are named
`Cluster` and keep the merge distance as `value`. -/
def buildDendrogramTree (cardIds cardLabels : List String) : ClusterNode → DendrogramNode
  | .single i _ _ =>
      .leaf i (if i ∈ cardIds then cardLabels.getD (cardIds.indexOf i) i else i) i 0
  | .merge i _ l r d =>
      .node i "Cluster"
        (buildDendrogramTree cardIds cardLabels l)
        (buildDendrogramTree cardIds cardLabels r) d

/-- A cluster of one suggested cut, `{ id, name, cardIds, cardLabels }`. -/
structure SuggestedCluster where
  id : String
  name : String
  cardIds : List String
  cardLabels : List String
deriving DecidableEq, Repr

/-- One entry of `suggestedClusters`: a threshold and its flat cut. -/
structure ThresholdCut where
  threshold : ℚ
  clusters : List SuggestedCluster
deriving DecidableEq, Repr

/-- The `{ id, items }` working cluster of the cut replay (analysis.ts 265-268). -/
structure SimpleCluster where
  id : String
  items : List String
deriving DecidableEq, Repr

/-- One iteration of the cut replay (analysis.ts 271-281): apply the recorded
merge when its distance is within the threshold, else skip it. -/
def cutStep (τ : ℚ) (cur : List SimpleCluster) (m : MergeRec) : List SimpleCluster :=
  if m.distance ≤ τ then
    removeTwo cur m.merged.1 m.merged.2 ++ [⟨m.newCluster.cid, m.newCluster.items⟩]
  else cur

/-- The cut replay at one threshold (analysis.ts 264-281): starting from
singletons, apply every recorded merge whose distance is `≤ τ`, in order. -/
def cutAt (hist : List MergeRec) (cardIds : List String) (τ : ℚ) : List SimpleCluster :=
  hist.foldl (cutStep τ) (cardIds.map (fun id => ⟨id, [id]⟩))

/-- `generateSuggestedClusters` (analysis.ts 253-296): cuts at thresholds
0.3, 0.5, 0.7, clusters labelled sequentially, labels looked up via `indexOf`. -/
def generateSuggestedClusters (hist : List MergeRec) (cardIds cardLabels : List String) :
    List ThresholdCut :=
  [(3 : ℚ)/10, 5/10, 7/10].map (fun τ =>
    { threshold := τ
      clusters := (cutAt hist cardIds τ).enum.map (fun ic =>
        { id := ic.2.id
          name := "Cluster " ++ toString (ic.1 + 1)
          cardIds := ic.2.items
          cardLabels := ic.2.items.map (fun id =>
            if id ∈ cardIds then cardLabels.getD (cardIds.indexOf id) id else id) }) })

/-- `ClusterAnalysis` from `types/results.ts`. -/
structure ClusterAnalysis where
  root : DendrogramNode
  suggestedClusters : List ThresholdCut
deriving DecidableEq, Repr

/-- `computeHierarchicalClustering` (analysis.ts 125-227).  With zero cards the
loop never runs, `clusters[0]` is `undefined`, and `buildDendrogramTree`
dereferences it: that thrown `TypeError` is modelled as `none`. -/
def computeHierarchicalClustering (sm : SimilarityMatrix) (now : Nat) :
    Option ClusterAnalysis :=
  let final := clusterIter now sm.cardIds.length (initialState sm)
  match final.clusters with
  | [] => none
  | c :: _ =>
      some { root := buildDendrogramTree sm.cardIds sm.cardLabels c
             suggestedClusters :=
               generateSuggestedClusters final.history sm.cardIds sm.cardLabels }

/-- `normalizeCategory` (analysis.ts 366-368):
`name.toLowerCase().trim().replace(/[^a-z0-9\s]/g, '')` (ASCII reading). -/
def normalizeCategory (name : String) : String :=
  String.mk (name.toLower.trim.toList.filter (fun c =>
    decide (('a' ≤ c ∧ c ≤ 'z') ∨ ('0' ≤ c ∧ c ≤ '9') ∨ c.isWhitespace)))

/-- One `topCards` entry of `CategoryAnalysis`. -/
structure TopCard where
  cardId : String
  cardLabel : String
  frequency : Nat
  percentage : ℚ
deriving DecidableEq, Repr

/-- One standardized category of `CategoryAnalysis`. -/
structure StandardizedCategory where
  name : String
  originalNames : List String
  frequency : Nat
  topCards : List TopCard
deriving DecidableEq, Repr

/-- `CategoryAnalysis` from `types/results.ts`. -/
structure CategoryAnalysis where
  standardizedCategories : List StandardizedCategory
deriving DecidableEq, Repr

/-- The per-normalized-name accumulator of `analyzeCategoryUsage` (analysis.ts 306-310). -/
structure CatUsage where
  originalNames : List String
  frequency : Nat
  cardCounts : List (String × Nat)
deriving DecidableEq, Repr

/-- Processing one category of one session (analysis.ts 313-334). -/
def recordCategory (s : SortingSession) (m : List (String × CatUsage)) (cat : Category) :
    List (String × CatUsage) :=
  upsert (normalizeCategory cat.name)
    (fun o =>
      let u := o.getD ⟨[], 0, []⟩
      { originalNames := addSet u.originalNames cat.name
        frequency := u.frequency + 1
        cardCounts :=
          (s.placements.filter (fun p => decide (p.categoryId = cat.id))).foldl
            (fun cc p => upsert p.cardId (fun c => c.getD 0 + 1) cc) u.cardCounts })
    m

/-- The full `categoryUsage` map over all sessions. -/
def categoryUsageMap (sessions : List SortingSession) : List (String × CatUsage) :=
  sessions.foldl (fun m s => s.categories.foldl (recordCategory s) m) []

/-- `sessions.find(s => s.cards.some(c => c.id === cardId))?.cards.find(...)`
followed by `card?.label || cardId` (JS `||`: an empty label also falls back). -/
def lookupCardLabel (sessions : List SortingSession) (cardId : String) : String :=
  match sessions.find? (fun s => s.cards.any (fun c => decide (c.id = cardId))) with
  | none => cardId
  | some s =>
      match s.cards.find? (fun c => decide (c.id = cardId)) with
      | none => cardId
      | some c => if c.label = "" then cardId else c.label

/-- `analyzeCategoryUsage` (analysis.ts 302-364).  `percentage` divides by the
category's `frequency`, which is at least 1 for every entry of the map. -/
def analyzeCategoryUsage (sessions : List SortingSession) : CategoryAnalysis :=
  { standardizedCategories :=
      ((categoryUsageMap sessions).map (fun e =>
        { name := e.1
          originalNames := e.2.originalNames
          frequency := e.2.frequency
          topCards :=
            ((e.2.cardCounts.map (fun cc =>
              ({ cardId := cc.1
                 cardLabel := lookupCardLabel sessions cc.1
                 frequency := cc.2
                 percentage := (cc.2 : ℚ) / (e.2.frequency : ℚ) * 100 } : TopCard))).mergeSort
              (fun a b => decide (b.frequency ≤ a.frequency))).take 5
          : StandardizedCategory })).mergeSort
        (fun a b => decide (b.frequency ≤ a.frequency)) }

/-- One `placements` entry of a `CardPlacementSummary`. -/
structure PlacementEntry where
  categoryName : String
  count : Nat
  percentage : ℚ
deriving DecidableEq, Repr

/-- `CardPlacementSummary` from `types/results.ts`. -/
structure CardPlacementSummary where
  cardId : String
  cardLabel : String
  placements : List PlacementEntry
  agreementScore : ℚ
  primaryCategory : String
deriving DecidableEq, Repr

/-- The per-card `placements` count map (analysis.ts 379-389): per session, the
first placement for the card (JS `find`) contributes one tally under its
normalized category name. -/
def cardPlacementCounts (sessions : List SortingSession) (cardId : String) :
    List (String × Nat) :=
  sessions.foldl
    (fun m s =>
      match s.placements.find? (fun p => decide (p.cardId = cardId)) with
      | none => m
      | some p => upsert (normalizeCategory p.categoryName) (fun c => c.getD 0 + 1) m)
    []

/-- `totalPlacements` (analysis.ts 380-388): the number of sessions in which
the card has a placement. -/
def totalPlacements (sessions : List SortingSession) (cardId : String) : Nat :=
  sessions.countP (fun s => s.placements.any (fun p => decide (p.cardId = cardId)))

/-- The summary of one card (the body of the `cards.map` of analysis.ts 378-410).
`placementArray[0]?.categoryName || 'Unplaced'`: JS `||` also falls back on an
empty normalized name. -/
def cardSummary (sessions : List SortingSession) (card : Card) : CardPlacementSummary :=
  let total := totalPlacements sessions card.id
  let placementArray :=
    ((cardPlacementCounts sessions card.id).map (fun e =>
      ({ categoryName := e.1
         count := e.2
         percentage := if 0 < total then (e.2 : ℚ) / (total : ℚ) * 100 else 0 }
        : PlacementEntry))).mergeSort (fun a b => decide (b.count ≤ a.count))
  let maxPercentage := ((placementArray.head?.map (·.percentage)).getD 0)
  { cardId := card.id
    cardLabel := card.label
    placements := placementArray
    agreementScore := maxPercentage / 100
    primaryCategory :=
      match placementArray.head? with
      | none => "Unplaced"
      | some e => if e.categoryName = "" then "Unplaced" else e.categoryName }

/-- `analyzeCardPlacements` (analysis.ts 374-411). -/
def analyzeCardPlacements (sessions : List SortingSession) (cards : List Card) :
    List CardPlacementSummary :=
  cards.map (cardSummary sessions)

/-- One generated insight (`AnalysisResults['insights']` element). -/
structure Insight where
  type : String
  message : String
  relatedCards : List String
  confidence : ℚ
deriving DecidableEq, Repr

/-- `generateInsights` (analysis.ts 417-459): the three rules in their fixed
order (top strong pair, up to two ambiguous cards, consensus count). -/
def generateInsights (sm : SimilarityMatrix) (summaries : List CardPlacementSummary) :
    List Insight :=
  let cells := getSimilarityCells sm
  let strongPairs := cells.filter (fun c => decide ((8 : ℚ)/10 ≤ c.similarity))
  let strong : List Insight :=
    match strongPairs.head? with
    | none => []
    | some topPair =>
        [{ type := "strong_cluster"
           message := "\"" ++ topPair.cardALabel ++ "\" and \"" ++ topPair.cardBLabel ++
             "\" were sorted together " ++ toString (jsRound (topPair.similarity * 100)) ++
             "% of the time, indicating a strong conceptual relationship."
           relatedCards := [topPair.cardAId, topPair.cardBId]
           confidence := topPair.similarity }]
  let ambiguous :=
    ((summaries.filter (fun c => decide (c.agreementScore < (4 : ℚ)/10))).take 2).map
      (fun card =>
        ({ type := "ambiguous_card"
           message := "\"" ++ card.cardLabel ++ "\" shows low placement agreement (" ++
             toString (jsRound (card.agreementScore * 100)) ++
             "%). Consider reviewing this item's clarity or scope."
           relatedCards := [card.cardId]
           confidence := 1 - card.agreementScore } : Insight))
  let consensusCards := summaries.filter (fun c => decide ((9 : ℚ)/10 ≤ c.agreementScore))
  let consensus : List Insight :=
    if 3 ≤ consensusCards.length then
      [{ type := "consensus"
         message := toString consensusCards.length ++
           " cards show very high placement agreement (>90%), suggesting clear user mental models for these items."
         relatedCards := consensusCards.map (·.cardId)
         confidence := (9 : ℚ)/10 }]
    else []
  strong ++ ambiguous ++ consensus

/-- `AnalysisResults` from `types/results.ts`. -/
structure AnalysisResults where
  studyId : String
  studyName : String
  analyzedAt : Nat
  participantCount : Nat
  completionRate : ℚ
  averageDuration : ℚ
  similarityMatrix : SimilarityMatrix
  clusterAnalysis : ClusterAnalysis
  categoryAnalysis : CategoryAnalysis
  cardSummaries : List CardPlacementSummary
  insights : List Insight
deriving DecidableEq, Repr

/-- `runFullAnalysis` (analysis.ts 465-499): filter to completed sessions, run
the four components, add rates and durations.  `analyzedAt` records the clock.
`none` propagates the clustering `TypeError` (zero cards). -/
def runFullAnalysis (studyId studyName : String) (sessions : List SortingSession)
    (cards : List Card) (now : Nat) : Option AnalysisResults :=
  let completedSessions := sessions.filter (fun s => decide (s.participant.completedAt ≠ none))
  let similarityMatrix := computeSimilarityMatrix completedSessions cards
  match computeHierarchicalClustering similarityMatrix now with
  | none => none
  | some clusterAnalysis =>
      let durations := completedSessions.filterMap (fun s => s.participant.duration)
      some
        { studyId := studyId
          studyName := studyName
          analyzedAt := now
          participantCount := completedSessions.length
          completionRate :=
            if 0 < sessions.length then
              (completedSessions.length : ℚ) / (sessions.length : ℚ)
            else 0
          averageDuration :=
            if 0 < durations.length then durations.sum / (durations.length : ℚ) else 0
          similarityMatrix := similarityMatrix
          clusterAnalysis := clusterAnalysis
          categoryAnalysis := analyzeCategoryUsage completedSessions
          cardSummaries := analyzeCardPlacements completedSessions cards
          insights := generateInsights similarityMatrix
            (analyzeCardPlacements completedSessions cards) }

/-! ### Basic list toolkit -/

/-- Invariant of the scan fold: after processing `processed`, the accumulator
holds the value of the first minimum of `processed` and its pair (or `none`
when nothing was scanned yet). -/
def MinAcc (d : List (List ℚ)) (processed : List (Nat × Nat))
    (acc : (Nat × Nat) × Option ℚ) : Prop :=
  (acc.2 = none → processed = []) ∧
  (∀ m, acc.2 = some m →
    m = mget d acc.1.1 acc.1.2 ∧
    (∃ pre post, processed = pre ++ acc.1 :: post ∧
      ∀ p ∈ pre, m < mget d p.1 p.2) ∧
    ∀ p ∈ processed, m ≤ mget d p.1 p.2)

/-- Leaf ids of the binary tree a `ClusterNode` spans (singletons are leaves). -/
def ClusterNode.treeLeaves : ClusterNode → List String
  | .single i _ _ => [i]
  | .merge _ _ l r _ => l.treeLeaves ++ r.treeLeaves

/-- Number of merge nodes of the tree a `ClusterNode` spans. -/
def ClusterNode.treeInternal : ClusterNode → Nat
  | .single _ _ _ => 0
  | .merge _ _ l r _ => l.treeInternal + r.treeInternal + 1

/-- The matrix has symmetric reads everywhere (`mget`-level symmetry). -/
def SymmDist (m : List (List ℚ)) : Prop := ∀ a b, mget m a b = mget m b a

/-- Invariant carried through the merge loop: the distance matrix stays
symmetric, recorded merge distances are non-decreasing, and every recorded
distance bounds every current off-diagonal distance from below. -/
def GoodState (st : ClusterState) : Prop :=
  SymmDist st.dist ∧
  (st.history.map MergeRec.distance).Pairwise (· ≤ ·) ∧
  ∀ r ∈ st.history, ∀ a b, a ≠ b → a < st.clusters.length →
    b < st.clusters.length → r.distance ≤ mget st.dist a b

/-- The replay projection of a working cluster (`{ id, items }`). -/
def toSimple (c : ClusterNode) : SimpleCluster := ⟨c.cid, c.items⟩

/-- Well-formedness of a `SimilarityMatrix` per the data model: square of side
`cardIds.length` and symmetric (stated over `List.range` so that it is
decidable on concrete matrices). -/
def MatrixWF (sm : SimilarityMatrix) : Prop :=
  sm.matrix.length = sm.cardIds.length ∧
  (∀ row ∈ sm.matrix, row.length = sm.cardIds.length) ∧
  ∀ a ∈ List.range sm.cardIds.length, ∀ b ∈ List.range sm.cardIds.length,
    mget sm.matrix a b = mget sm.matrix b a

/-- What one merge step does: it selects the row-major-first minimum-distance
pair, records exactly that merge, and gives the merged cluster the unweighted
average `(dist[minI][k] + dist[minJ][k]) / 2` as its distance to every other
cluster `k` (both in the new last column and in the new last row). -/
def MergeStepSpec (now : Nat) (st : ClusterState) : Prop :=
  ((stepPair st).1 < (stepPair st).2 ∧ (stepPair st).2 < st.clusters.length) ∧
  (∀ a b, a < b → b < st.clusters.length → stepMin st ≤ mget st.dist a b) ∧
  (∃ pre post, pairList st.clusters.length = pre ++ stepPair st :: post ∧
    ∀ q ∈ pre, stepMin st < mget st.dist q.1 q.2) ∧
  ((clusterStep now st).history =
    st.history ++ [⟨stepPair st, stepMin st, stepNewCluster now st⟩]) ∧
  (∀ a, a < (stepKept st).length →
    mget (clusterStep now st).dist a (stepKept st).length =
      (mget st.dist (stepPair st).1 ((stepKept st).getD a 0) +
        mget st.dist (stepPair st).2 ((stepKept st).getD a 0)) / 2 ∧
    mget (clusterStep now st).dist (stepKept st).length a =
      (mget st.dist (stepPair st).1 ((stepKept st).getD a 0) +
        mget st.dist (stepPair st).2 ((stepKept st).getD a 0)) / 2)

/-- Erase the generated (`Date.now()`-bearing) ids of merge nodes. -/
def scrubCN : ClusterNode → ClusterNode
  | .single i it d => .single i it d
  | .merge _ it l r d => .merge "" it (scrubCN l) (scrubCN r) d

/-- Erase the generated id carried by one merge record. -/
def scrubRec (r : MergeRec) : MergeRec := ⟨r.merged, r.distance, scrubCN r.newCluster⟩

/-- Two loop states that differ only in the clock used for generated ids. -/
def TimeRel (st₁ st₂ : ClusterState) : Prop :=
  st₁.clusters.map scrubCN = st₂.clusters.map scrubCN ∧
  st₁.dist = st₂.dist ∧
  st₁.history.map scrubRec = st₂.history.map scrubRec

/-- Erase the generated ids of internal dendrogram nodes. -/
def scrubDendro : DendrogramNode → DendrogramNode
  | .leaf i n c v => .leaf i n c v
  | .node _ n l r v => .node "" n (scrubDendro l) (scrubDendro r) v

/-- Erase the generated id of one suggested cluster. -/
def scrubSugg (sc : SuggestedCluster) : SuggestedCluster :=
  { sc with id := "" }

/-- Erase the generated ids of one threshold cut. -/
def scrubCut (tc : ThresholdCut) : ThresholdCut :=
  { tc with clusters := tc.clusters.map scrubSugg }

/-- Erase the generated ids of a whole `ClusterAnalysis`. -/
def scrubCA (ca : ClusterAnalysis) : ClusterAnalysis :=
  ⟨scrubDendro ca.root, ca.suggestedClusters.map scrubCut⟩

/-- Erase the clock-derived data of an `AnalysisResults`: the `analyzedAt`
timestamp and the `Date.now()`-bearing generated ids inside the cluster
analysis.  Every other field is kept. -/
def scrubResults (r : AnalysisResults) : AnalysisResults :=
  { r with analyzedAt := 0, clusterAnalysis := scrubCA r.clusterAnalysis }

/-- One step of building the per-session category map (analysis.ts 44-49). -/
def catStep (m : List (String × List String)) (p : CardPlacement) :
    List (String × List String) :=
  upsert p.categoryId (fun o => addSet (o.getD []) p.cardId) m

/-- The per-pair contribution test of the inner loop (analysis.ts 55-63). -/
def pairFn (cardIds : List String) (ab : String × String) : Option (Nat × Nat) :=
  if ab.1 ∈ cardIds ∧ ab.2 ∈ cardIds then
    some (cardIds.indexOf ab.1, cardIds.indexOf ab.2)
  else none

/-- A one-participant study sorting two cards into one category. -/
def c5Study : List SortingSession :=
  [⟨⟨none, none⟩, [⟨"a", "A"⟩, ⟨"b", "B"⟩], [⟨"g", "G"⟩],
    [⟨"a", "g", "G"⟩, ⟨"b", "g", "G"⟩]⟩]

/-- The card list of that study. -/
def c5Cards : List Card := [⟨"a", "A"⟩, ⟨"b", "B"⟩]

/-- The category keys a placement list adds to the map, in first-occurrence
order, given that the keys `ks` are already present. -/
def newKeys : List CardPlacement → List String → List String
  | [], _ => []
  | p :: rest, ks =>
    if p.categoryId ∈ ks then newKeys rest ks
    else p.categoryId :: newKeys rest (ks ++ [p.categoryId])

/-- The final card set accumulated for category `c` over a placement list,
starting from `b`. -/
def valFor (c : String) : List CardPlacement → List String → List String
  | [], b => b
  | p :: rest, b => valFor c rest (if p.categoryId = c then addSet b p.cardId else b)

/-- A session with the placements of unknown cards removed. -/
def filterKnown (ids : List String) (s : SortingSession) : SortingSession :=
  ⟨s.participant, s.cards, s.categories,
    s.placements.filter (fun p => p.cardId ∈ ids)⟩

/-- A study whose single session places a known card `"a"` and an unknown card
`"x"`; card `"b"` is never placed. -/
def c9Study : List SortingSession :=
  [⟨⟨none, none⟩, [], [], [⟨"a", "g", "G"⟩, ⟨"x", "g", "G"⟩]⟩]

/-- The card list of that study: `"x"` is not a card, `"b"` is unreferenced. -/
def c9Cards : List Card := [⟨"a", "A"⟩, ⟨"b", "B"⟩]

theorem upairs_three : upairs [1, 2, 3] = [(1, 2), (1, 3), (2, 3)] := by decide

theorem pairList_three : pairList 3 = [(0, 1), (0, 2), (1, 2)] := by decide

theorem mem_pairList {n : Nat} {p : Nat × Nat} :
    p ∈ pairList n ↔ p.1 < p.2 ∧ p.2 < n := by
  cases p with
  | mk a b =>
    simp only [pairList, List.mem_flatMap, List.mem_map, List.mem_filter, List.mem_range]
    constructor
    · rintro ⟨i, hi, j, ⟨hj, hij⟩, h⟩
      cases h
      exact ⟨by simpa using hij, hj⟩
    · rintro ⟨hab, hb⟩
      exact ⟨a, lt_trans hab hb, b, ⟨hb, by simpa using hab⟩, rfl⟩

theorem mem_keptIdxs {n i j k : Nat} :
    k ∈ keptIdxs n i j ↔ k < n ∧ k ≠ i ∧ k ≠ j := by
  simp [keptIdxs]

theorem nodup_keptIdxs (n i j : Nat) : (keptIdxs n i j).Nodup :=
  (List.nodup_range n).filter _

theorem pairwise_lt_keptIdxs (n i j : Nat) :
    (keptIdxs n i j).Pairwise (· < ·) :=
  (List.pairwise_lt_range n).filter _

theorem count_keptIdxs (n i j k : Nat) :
    (keptIdxs n i j).count k = if k < n ∧ k ≠ i ∧ k ≠ j then 1 else 0 := by
  by_cases h : k < n ∧ k ≠ i ∧ k ≠ j
  · rw [if_pos h]
    exact List.count_eq_one_of_mem (nodup_keptIdxs n i j) (mem_keptIdxs.2 h)
  · rw [if_neg h]
    exact List.count_eq_zero_of_not_mem (fun hm => h (mem_keptIdxs.1 hm))

theorem count_range' (n k : Nat) :
    (List.range n).count k = if k < n then 1 else 0 := by
  by_cases h : k < n
  · rw [if_pos h]
    exact List.count_eq_one_of_mem (List.nodup_range n) (List.mem_range.2 h)
  · rw [if_neg h]
    exact List.count_eq_zero_of_not_mem (fun hm => h (List.mem_range.1 hm))

theorem range_perm_kept {n i j : Nat} (hij : i ≠ j) (hi : i < n) (hj : j < n) :
    (List.range n).Perm (i :: j :: keptIdxs n i j) := by
  rw [List.perm_iff_count]
  intro k
  rw [count_range', List.count_cons, List.count_cons, count_keptIdxs]
  simp only [beq_iff_eq]
  split_ifs <;> omega

theorem length_keptIdxs {n i j : Nat} (hij : i ≠ j) (hi : i < n) (hj : j < n) :
    (keptIdxs n i j).length = n - 2 := by
  have h := (range_perm_kept hij hi hj).length_eq
  simp only [List.length_range, List.length_cons] at h
  omega

theorem self_eq_range_map_getD (l : List α) (d : α) :
    (List.range l.length).map (fun k => l.getD k d) = l := by
  induction l with
  | nil => rfl
  | cons x t ih =>
    rw [List.length_cons, List.range_succ_eq_map, List.map_cons, List.map_map]
    have hcomp : ((fun k => (x :: t).getD k d) ∘ Nat.succ) = fun k => t.getD k d := by
      funext k
      rfl
    rw [hcomp, ih]
    rfl

theorem filterMap_getElem_eq_map_getD (l : List α) (d : α) (ks : List Nat)
    (h : ∀ k ∈ ks, k < l.length) :
    ks.filterMap (fun k => l[k]?) = ks.map (fun k => l.getD k d) := by
  induction ks with
  | nil => rfl
  | cons k t ih =>
    have hk : k < l.length := h k (List.mem_cons_self k t)
    rw [List.filterMap_cons, List.getElem?_eq_getElem hk, List.map_cons,
      List.getD_eq_getElem l d hk, ih (fun a ha => h a (List.mem_cons_of_mem k ha))]

theorem removeTwo_eq_map_getD (l : List α) (i j : Nat) (d : α) :
    removeTwo l i j = (keptIdxs l.length i j).map (fun k => l.getD k d) := by
  unfold removeTwo
  exact filterMap_getElem_eq_map_getD l d _ (fun k hk => (mem_keptIdxs.1 hk).1)

theorem length_removeTwo (l : List α) {i j : Nat} (hij : i ≠ j)
    (hi : i < l.length) (hj : j < l.length) :
    (removeTwo l i j).length = l.length - 2 := by
  rw [removeTwo_eq_map_getD l i j (l.get ⟨i, hi⟩), List.length_map,
    length_keptIdxs hij hi hj]

theorem perm_removeTwo (l : List α) (d : α) {i j : Nat} (hij : i ≠ j)
    (hi : i < l.length) (hj : j < l.length) :
    l.Perm (l.getD i d :: l.getD j d :: removeTwo l i j) := by
  have h2 := (range_perm_kept hij hi hj).map (fun k => l.getD k d)
  rw [self_eq_range_map_getD l d, List.map_cons, List.map_cons,
    ← removeTwo_eq_map_getD l i j d] at h2
  exact h2

theorem filterMap_option_map (f : α → β) (g : γ → Option α) (ks : List γ) :
    ks.filterMap (fun k => Option.map f (g k)) = (ks.filterMap g).map f := by
  induction ks with
  | nil => rfl
  | cons k t ih => cases h : g k <;> simp [List.filterMap_cons, h, ih]

theorem removeTwo_map (f : α → β) (l : List α) (i j : Nat) :
    removeTwo (l.map f) i j = (removeTwo l i j).map f := by
  unfold removeTwo
  rw [List.length_map]
  have hfun : (fun k : Nat => (List.map f l)[k]?) = fun k : Nat => Option.map f l[k]? := by
    funext k
    exact List.getElem?_map f l k
  rw [hfun, filterMap_option_map]

/-! ### Specification of the minimum-distance scan -/

theorem minAcc_step (d : List (List ℚ)) (processed : List (Nat × Nat))
    (acc : (Nat × Nat) × Option ℚ) (p : Nat × Nat) (h : MinAcc d processed acc) :
    MinAcc d (processed ++ [p])
      (if ltOpt (mget d p.1 p.2) acc.2 then (p, some (mget d p.1 p.2)) else acc) := by
  obtain ⟨q, mo⟩ := acc
  cases mo with
  | none =>
    have hproc : processed = [] := h.1 rfl
    subst hproc
    show MinAcc d ([] ++ [p]) (p, some (mget d p.1 p.2))
    refine ⟨(fun hc => nomatch hc), fun m hm => ?_⟩
    obtain rfl : m = mget d p.1 p.2 := by cases hm; rfl
    exact ⟨rfl, ⟨[], [], rfl, by simp⟩, by simp⟩
  | some m =>
    have hm := h.2 m rfl
    obtain ⟨hmv, ⟨pre, post, hsplit, hpre⟩, hall⟩ := hm
    by_cases hlt : mget d p.1 p.2 < m
    · rw [if_pos (show ltOpt (mget d p.1 p.2) (some m) = true by
        simp [ltOpt, hlt])]
      refine ⟨(fun hc => nomatch hc), fun m2 hm2 => ?_⟩
      obtain rfl : m2 = mget d p.1 p.2 := by cases hm2; rfl
      refine ⟨rfl, ⟨processed, [], rfl, fun q hq => lt_of_lt_of_le hlt (hall q hq)⟩, ?_⟩
      intro q hq
      rcases List.mem_append.1 hq with hq | hq
      · exact le_of_lt (lt_of_lt_of_le hlt (hall q hq))
      · obtain rfl : q = p := by simpa using hq
        exact le_refl _
    · rw [if_neg (show ¬ ltOpt (mget d p.1 p.2) (some m) = true by
        simp [ltOpt, hlt])]
      refine ⟨(fun hc => nomatch hc), fun m2 hm2 => ?_⟩
      obtain rfl : m2 = m := by cases hm2; rfl
      refine ⟨hmv, ⟨pre, post ++ [p], by rw [hsplit]; simp, hpre⟩, ?_⟩
      intro q hq
      rcases List.mem_append.1 hq with hq | hq
      · exact hall q hq
      · obtain rfl : q = p := by simpa using hq
        exact le_of_not_lt hlt

theorem minAcc_foldl (d : List (List ℚ)) (ps : List (Nat × Nat)) :
    ∀ (processed : List (Nat × Nat)) (acc : (Nat × Nat) × Option ℚ),
      MinAcc d processed acc →
      MinAcc d (processed ++ ps)
        (ps.foldl (fun acc p =>
          if ltOpt (mget d p.1 p.2) acc.2 then (p, some (mget d p.1 p.2)) else acc) acc) := by
  induction ps with
  | nil => intro processed acc h; simpa using h
  | cons p t ih =>
    intro processed acc h
    have h2 := ih (processed ++ [p]) _ (minAcc_step d processed acc p h)
    simpa [List.append_assoc] using h2

theorem findMinPair_minAcc (d : List (List ℚ)) (n : Nat) :
    MinAcc d (pairList n) (findMinPair d n) := by
  have h0 : MinAcc d [] ((0, 1), none) :=
    ⟨fun _ => rfl, fun m hm => by cases hm⟩
  have := minAcc_foldl d (pairList n) [] ((0, 1), none) h0
  simpa [findMinPair] using this

theorem findMinPair_spec (d : List (List ℚ)) (n : Nat) (h2 : 2 ≤ n) :
    ((findMinPair d n).1.1 < (findMinPair d n).1.2 ∧ (findMinPair d n).1.2 < n) ∧
    (findMinPair d n).2 = some (mget d (findMinPair d n).1.1 (findMinPair d n).1.2) ∧
    (∀ p ∈ pairList n, mget d (findMinPair d n).1.1 (findMinPair d n).1.2 ≤ mget d p.1 p.2) ∧
    ∃ pre post, pairList n = pre ++ (findMinPair d n).1 :: post ∧
      ∀ p ∈ pre, mget d (findMinPair d n).1.1 (findMinPair d n).1.2 < mget d p.1 p.2 := by
  have hmem : ((0 : Nat), (1 : Nat)) ∈ pairList n :=
    mem_pairList.2 ⟨Nat.zero_lt_one, by omega⟩
  have hacc := findMinPair_minAcc d n
  cases hval : (findMinPair d n).2 with
  | none =>
    have := hacc.1 hval
    rw [this] at hmem
    cases hmem
  | some m =>
    obtain ⟨hmv, ⟨pre, post, hsplit, hpre⟩, hall⟩ := hacc.2 m hval
    have hself : (findMinPair d n).1 ∈ pairList n := by
      rw [hsplit]
      exact List.mem_append.2 (Or.inr (List.mem_cons_self _ _))
    have hbounds := mem_pairList.1 hself
    subst hmv
    exact ⟨hbounds, rfl, hall, pre, post, hsplit, hpre⟩

/-- Minimality over all ordered index pairs below `n`. -/
theorem findMinPair_min (d : List (List ℚ)) (n : Nat) (h2 : 2 ≤ n)
    {a b : Nat} (hab : a < b) (hb : b < n) :
    mget d (findMinPair d n).1.1 (findMinPair d n).1.2 ≤ mget d a b :=
  (findMinPair_spec d n h2).2.2.1 (a, b) (mem_pairList.2 ⟨hab, hb⟩)

/-! ### The rebuilt distance matrix -/

theorem getD_of_lt (l : List α) (d : α) {a : Nat} (h : a < l.length) :
    l.getD a d = l.get ⟨a, h⟩ := by
  rw [List.getD_eq_getElem l d h]
  rfl

theorem getD_map_of_lt (f : α → β) (l : List α) (d : α) (e : β) {a : Nat}
    (h : a < l.length) :
    (l.map f).getD a e = f (l.getD a d) := by
  have hm : a < (l.map f).length := by simpa using h
  rw [List.getD_eq_getElem _ e hm, List.getElem_map, List.getD_eq_getElem l d h]

theorem getD_append_last (l : List α) (x d : α) :
    (l ++ [x]).getD l.length d = x := by
  rw [List.getD_append_right l [x] d l.length (le_refl _), Nat.sub_self]
  rfl

theorem getD_append_big (l : List α) (x d : α) {b : Nat} (h : l.length < b) :
    (l ++ [x]).getD b d = d := by
  rw [List.getD_append_right l [x] d b (le_of_lt h)]
  have : 1 ≤ b - l.length := by omega
  match hm : b - l.length with
  | 0 => omega
  | k + 1 => rfl

/-- Characterization of every entry of the rebuilt distance matrix of one merge
step: kept rows and columns keep their old entries, the appended row/column
holds the unweighted averages, the new diagonal cell is 0, everything out of
range reads 0. -/
theorem mget_stepDist (d : List (List ℚ)) (kept : List Nat) (i j : Nat) (a b : Nat) :
    mget (kept.map (fun x => kept.map (fun y => mget d x y) ++
        [(mget d i x + mget d j x) / 2]) ++
      [kept.map (fun k => (mget d i k + mget d j k) / 2) ++ [0]]) a b =
    if a < kept.length ∧ b < kept.length then
      mget d (kept.getD a 0) (kept.getD b 0)
    else if a < kept.length ∧ b = kept.length then
      (mget d i (kept.getD a 0) + mget d j (kept.getD a 0)) / 2
    else if a = kept.length ∧ b < kept.length then
      (mget d i (kept.getD b 0) + mget d j (kept.getD b 0)) / 2
    else 0 := by
  have hrow : ∀ x : Nat,
      ∀ b : Nat, ((kept.map (fun y => mget d x y) ++ [(mget d i x + mget d j x) / 2]).getD b 0) =
        if b < kept.length then mget d x (kept.getD b 0)
        else if b = kept.length then (mget d i x + mget d j x) / 2
        else 0 := by
    intro x b
    by_cases hb : b < kept.length
    · rw [if_pos hb, List.getD_append _ _ _ b (by simpa using hb),
        getD_map_of_lt (fun y => mget d x y) kept 0 0 hb]
    · rw [if_neg hb]
      by_cases hbe : b = kept.length
      · subst hbe
        rw [if_pos rfl]
        have hl : (kept.map (fun y => mget d x y)).length = kept.length := by simp
        rw [← hl, getD_append_last]
      · rw [if_neg hbe]
        have hgt : (kept.map (fun y => mget d x y)).length < b := by
          simp only [List.length_map]
          omega
        rw [getD_append_big _ _ _ hgt]
  have hlastrow : ∀ b : Nat,
      ((kept.map (fun k => (mget d i k + mget d j k) / 2) ++ [(0 : ℚ)]).getD b 0) =
        if b < kept.length then (mget d i (kept.getD b 0) + mget d j (kept.getD b 0)) / 2
        else 0 := by
    intro b
    by_cases hb : b < kept.length
    · rw [if_pos hb, List.getD_append _ _ _ b (by simpa using hb),
        getD_map_of_lt (fun k => (mget d i k + mget d j k) / 2) kept 0 0 hb]
    · rw [if_neg hb]
      by_cases hbe : b = kept.length
      · subst hbe
        have hl : (kept.map (fun k => (mget d i k + mget d j k) / 2)).length = kept.length := by
          simp
        rw [← hl, getD_append_last]
      · have hgt : (kept.map (fun k => (mget d i k + mget d j k) / 2)).length < b := by
          simp only [List.length_map]
          omega
        rw [getD_append_big _ _ _ hgt]
  show ((kept.map (fun x => kept.map (fun y => mget d x y) ++
      [(mget d i x + mget d j x) / 2]) ++
    [kept.map (fun k => (mget d i k + mget d j k) / 2) ++ [0]]).getD a []).getD b 0 = _
  by_cases ha : a < kept.length
  · rw [List.getD_append _ _ _ a (by simpa using ha),
      getD_map_of_lt (fun x => kept.map (fun y => mget d x y) ++
        [(mget d i x + mget d j x) / 2]) kept 0 [] ha,
      hrow (kept.getD a 0) b]
    split_ifs <;> first | rfl | omega
  · by_cases hae : a = kept.length
    · subst hae
      have hl : (kept.map (fun x => kept.map (fun y => mget d x y) ++
          [(mget d i x + mget d j x) / 2])).length = kept.length := by simp
      rw [← hl, getD_append_last, hl, hlastrow b]
      split_ifs <;> first | rfl | omega
    · have hgt : (kept.map (fun x => kept.map (fun y => mget d x y) ++
          [(mget d i x + mget d j x) / 2])).length < a := by
        simp only [List.length_map]
        omega
      rw [getD_append_big _ _ _ hgt]
      have hz : (([] : List ℚ).getD b 0) = 0 := rfl
      rw [hz]
      split_ifs <;> first | rfl | omega

/-! ### Facts about one merge step -/

theorem stepPair_lt (st : ClusterState) (h2 : 2 ≤ st.clusters.length) :
    (stepPair st).1 < (stepPair st).2 ∧ (stepPair st).2 < st.clusters.length :=
  (findMinPair_spec st.dist st.clusters.length h2).1

theorem stepMin_le_all (st : ClusterState) (h2 : 2 ≤ st.clusters.length)
    (hs : SymmDist st.dist) {a b : Nat} (hab : a ≠ b)
    (ha : a < st.clusters.length) (hb : b < st.clusters.length) :
    stepMin st ≤ mget st.dist a b := by
  rcases lt_or_gt_of_ne hab with h | h
  · exact findMinPair_min st.dist st.clusters.length h2 h hb
  · rw [hs a b]
    exact findMinPair_min st.dist st.clusters.length h2 h ha

theorem stepKept_length (st : ClusterState) (h2 : 2 ≤ st.clusters.length) :
    (stepKept st).length = st.clusters.length - 2 := by
  obtain ⟨hij, hj⟩ := stepPair_lt st h2
  exact length_keptIdxs (ne_of_lt hij) (lt_trans hij hj) hj

theorem stepKept_getD_mem (st : ClusterState) {a : Nat} (ha : a < (stepKept st).length) :
    (stepKept st).getD a 0 < st.clusters.length ∧
      (stepKept st).getD a 0 ≠ (stepPair st).1 ∧
      (stepKept st).getD a 0 ≠ (stepPair st).2 := by
  have hmem : (stepKept st).getD a 0 ∈ stepKept st := by
    rw [getD_of_lt _ _ ha]
    exact List.get_mem _ _ _
  exact mem_keptIdxs.1 hmem

theorem stepKept_getD_ne (st : ClusterState) {a b : Nat}
    (ha : a < (stepKept st).length) (hb : b < (stepKept st).length) (hab : a ≠ b) :
    (stepKept st).getD a 0 ≠ (stepKept st).getD b 0 := by
  rw [getD_of_lt _ _ ha, getD_of_lt _ _ hb]
  intro hc
  exact hab (((nodup_keptIdxs _ _ _).getElem_inj_iff).1 hc)

theorem clusterStep_dist (now : Nat) (st : ClusterState) :
    (clusterStep now st).dist =
      (stepKept st).map (fun a =>
        (stepKept st).map (fun b => mget st.dist a b) ++
          [(mget st.dist (stepPair st).1 a + mget st.dist (stepPair st).2 a) / 2]) ++
      [(stepKept st).map (fun k =>
          (mget st.dist (stepPair st).1 k + mget st.dist (stepPair st).2 k) / 2) ++ [0]] := rfl

theorem symmDist_clusterStep (now : Nat) (st : ClusterState) (hs : SymmDist st.dist) :
    SymmDist (clusterStep now st).dist := by
  intro a b
  rw [clusterStep_dist, mget_stepDist, mget_stepDist]
  split_ifs <;> first | rfl | exact hs _ _ | omega

theorem stepMin_le_stepDist (now : Nat) (st : ClusterState)
    (h2 : 2 ≤ st.clusters.length) (hs : SymmDist st.dist) {a b : Nat} (hab : a ≠ b)
    (ha : a < st.clusters.length - 1) (hb : b < st.clusters.length - 1) :
    stepMin st ≤ mget (clusterStep now st).dist a b := by
  have hkl := stepKept_length st h2
  have hij := stepPair_lt st h2
  have hi : (stepPair st).1 < st.clusters.length := lt_trans hij.1 hij.2
  rw [clusterStep_dist, mget_stepDist]
  split_ifs with h1 h2' h3
  · obtain ⟨hma, hai, haj⟩ := stepKept_getD_mem st h1.1
    obtain ⟨hmb, hbi, hbj⟩ := stepKept_getD_mem st h1.2
    exact stepMin_le_all st h2 hs (stepKept_getD_ne st h1.1 h1.2 hab) hma hmb
  · obtain ⟨hma, hai, haj⟩ := stepKept_getD_mem st h2'.1
    have hia := stepMin_le_all st h2 hs (Ne.symm hai) hi hma
    have hja := stepMin_le_all st h2 hs (Ne.symm haj) hij.2 hma
    linarith
  · obtain ⟨hmb, hbi, hbj⟩ := stepKept_getD_mem st h3.2
    have hib := stepMin_le_all st h2 hs (Ne.symm hbi) hi hmb
    have hjb := stepMin_le_all st h2 hs (Ne.symm hbj) hij.2 hmb
    linarith
  · omega

theorem clusterStep_clusters_perm (now : Nat) (st : ClusterState)
    (h2 : 2 ≤ st.clusters.length) :
    st.clusters.Perm
      (st.clusters.getD (stepPair st).1 default ::
        st.clusters.getD (stepPair st).2 default ::
        removeTwo st.clusters (stepPair st).1 (stepPair st).2) := by
  obtain ⟨hij, hj⟩ := stepPair_lt st h2
  exact perm_removeTwo st.clusters default (ne_of_lt hij) (lt_trans hij hj) hj

theorem clusterStep_length (now : Nat) (st : ClusterState)
    (h2 : 2 ≤ st.clusters.length) :
    (clusterStep now st).clusters.length = st.clusters.length - 1 := by
  obtain ⟨hij, hj⟩ := stepPair_lt st h2
  show (removeTwo st.clusters (stepPair st).1 (stepPair st).2 ++
    [stepNewCluster now st]).length = _
  rw [List.length_append,
    length_removeTwo st.clusters (ne_of_lt hij) (lt_trans hij hj) hj]
  simp only [List.length_singleton]
  omega

/-- Any per-cluster list quantity that splits a merge into its two parts is
preserved (as a multiset of elements) by one step. -/
theorem clusterStep_flatten_perm (f : ClusterNode → List γ) (now : Nat)
    (st : ClusterState) (h2 : 2 ≤ st.clusters.length)
    (hf : f (stepNewCluster now st) =
      f (st.clusters.getD (stepPair st).1 default) ++
      f (st.clusters.getD (stepPair st).2 default)) :
    (((clusterStep now st).clusters.map f).flatten).Perm
      ((st.clusters.map f).flatten) := by
  have hp := (clusterStep_clusters_perm now st h2).map f
  have hflat := hp.flatten
  show ((removeTwo st.clusters (stepPair st).1 (stepPair st).2 ++
    [stepNewCluster now st]).map f).flatten.Perm _
  rw [List.map_append, List.flatten_append] at *
  simp only [List.map_cons, List.flatten_cons, List.map_nil, List.flatten_nil,
    List.append_nil] at *
  refine List.Perm.trans ?_ hflat.symm
  rw [hf]
  have := @List.perm_append_comm _
    (((removeTwo st.clusters (stepPair st).1 (stepPair st).2).map f).flatten)
    (f (st.clusters.getD (stepPair st).1 default) ++
      f (st.clusters.getD (stepPair st).2 default))
  simpa using this

theorem clusterStep_internal_sum (now : Nat) (st : ClusterState)
    (h2 : 2 ≤ st.clusters.length) :
    ((clusterStep now st).clusters.map ClusterNode.treeInternal).sum =
      (st.clusters.map ClusterNode.treeInternal).sum + 1 := by
  have hp := (clusterStep_clusters_perm now st h2).map ClusterNode.treeInternal
  have hsum := hp.sum_eq
  show ((removeTwo st.clusters (stepPair st).1 (stepPair st).2 ++
    [stepNewCluster now st]).map ClusterNode.treeInternal).sum = _
  rw [List.map_append, List.sum_append, hsum]
  simp only [List.map_cons, List.sum_cons, List.map_singleton]
  show _ + (ClusterNode.treeInternal (stepNewCluster now st) + 0) = _
  have hnew : ClusterNode.treeInternal (stepNewCluster now st) =
      ClusterNode.treeInternal (st.clusters.getD (stepPair st).1 default) +
      ClusterNode.treeInternal (st.clusters.getD (stepPair st).2 default) + 1 := rfl
  rw [hnew]
  ring

/-! ### Loop invariants -/

theorem clusterStep_history (now : Nat) (st : ClusterState) :
    (clusterStep now st).history =
      st.history ++ [⟨stepPair st, stepMin st, stepNewCluster now st⟩] := rfl

theorem goodState_clusterStep (now : Nat) (st : ClusterState)
    (h2 : 2 ≤ st.clusters.length) (hg : GoodState st) :
    GoodState (clusterStep now st) := by
  obtain ⟨hs, hsort, hlb⟩ := hg
  have hij := stepPair_lt st h2
  have hi : (stepPair st).1 < st.clusters.length := lt_trans hij.1 hij.2
  have hhistlb : ∀ r ∈ st.history, r.distance ≤ stepMin st := fun r hr =>
    hlb r hr (stepPair st).1 (stepPair st).2 (ne_of_lt hij.1) hi hij.2
  refine ⟨symmDist_clusterStep now st hs, ?_, ?_⟩
  · rw [clusterStep_history, List.map_append, List.pairwise_append]
    refine ⟨hsort, List.pairwise_singleton _ _, ?_⟩
    intro x hx y hy
    simp only [List.map_singleton, List.mem_singleton] at hy
    subst hy
    obtain ⟨r, hr, rfl⟩ := List.mem_map.1 hx
    exact hhistlb r hr
  · intro r hr a b hab ha hb
    rw [clusterStep_length now st h2] at ha hb
    have hr2 : r ∈ st.history ∨ r = ⟨stepPair st, stepMin st, stepNewCluster now st⟩ := by
      simpa [clusterStep_history] using hr
    rcases hr2 with hro | hrn
    · exact le_trans (hhistlb r hro) (stepMin_le_stepDist now st h2 hs hab ha hb)
    · subst hrn
      exact stepMin_le_stepDist now st h2 hs hab ha hb

theorem clusterIter_zero (now : Nat) (st : ClusterState) :
    clusterIter now 0 st = st := rfl

theorem clusterIter_succ (now fuel : Nat) (st : ClusterState) :
    clusterIter now (fuel + 1) st =
      if st.clusters.length ≤ 1 then st
      else clusterIter now fuel (clusterStep now st) := rfl

theorem clusterIter_good (now : Nat) :
    ∀ (fuel : Nat) (st : ClusterState), GoodState st →
      GoodState (clusterIter now fuel st) := by
  intro fuel
  induction fuel with
  | zero => intro st hg; exact hg
  | succ fuel ih =>
    intro st hg
    show GoodState (if st.clusters.length ≤ 1 then st
      else clusterIter now fuel (clusterStep now st))
    by_cases hl : st.clusters.length ≤ 1
    · rw [if_pos hl]; exact hg
    · rw [if_neg hl]
      exact ih (clusterStep now st) (goodState_clusterStep now st (by omega) hg)

theorem clusterIter_history_ext (now : Nat) :
    ∀ (fuel : Nat) (st : ClusterState),
      ∃ ext, (clusterIter now fuel st).history = st.history ++ ext := by
  intro fuel
  induction fuel with
  | zero => intro st; exact ⟨[], by simp [clusterIter]⟩
  | succ fuel ih =>
    intro st
    show ∃ ext, (if st.clusters.length ≤ 1 then st
      else clusterIter now fuel (clusterStep now st)).history = _
    by_cases hl : st.clusters.length ≤ 1
    · rw [if_pos hl]; exact ⟨[], by simp⟩
    · rw [if_neg hl]
      obtain ⟨ext, hext⟩ := ih (clusterStep now st)
      rw [clusterStep_history, List.append_assoc] at hext
      exact ⟨_, hext⟩

theorem clusterIter_structure (now : Nat) :
    ∀ (fuel : Nat) (st : ClusterState),
      1 ≤ st.clusters.length → st.clusters.length ≤ fuel + 1 →
      (clusterIter now fuel st).clusters.length = 1 ∧
      (((clusterIter now fuel st).clusters.map ClusterNode.treeLeaves).flatten).Perm
        ((st.clusters.map ClusterNode.treeLeaves).flatten) ∧
      (((clusterIter now fuel st).clusters.map ClusterNode.items).flatten).Perm
        ((st.clusters.map ClusterNode.items).flatten) ∧
      ((clusterIter now fuel st).clusters.map ClusterNode.treeInternal).sum + 1 =
        (st.clusters.map ClusterNode.treeInternal).sum + st.clusters.length := by
  intro fuel
  induction fuel with
  | zero =>
    intro st h1 hfuel
    have hlen : st.clusters.length = 1 := by omega
    rw [clusterIter_zero]
    exact ⟨hlen, List.Perm.refl _, List.Perm.refl _, by rw [hlen]⟩
  | succ fuel ih =>
    intro st h1 hfuel
    rw [clusterIter_succ]
    by_cases hl : st.clusters.length ≤ 1
    · rw [if_pos hl]
      have hlen : st.clusters.length = 1 := by omega
      exact ⟨hlen, List.Perm.refl _, List.Perm.refl _, by rw [hlen]⟩
    · rw [if_neg hl]
      have h2 : 2 ≤ st.clusters.length := by omega
      have hlen' := clusterStep_length now st h2
      obtain ⟨hfin, hleaf, hitems, hsum⟩ := ih (clusterStep now st)
        (by omega) (by omega)
      refine ⟨hfin, ?_, ?_, ?_⟩
      · exact hleaf.trans
          (clusterStep_flatten_perm ClusterNode.treeLeaves now st h2 rfl)
      · exact hitems.trans
          (clusterStep_flatten_perm ClusterNode.items now st h2 rfl)
      · rw [hsum, clusterStep_internal_sum now st h2, hlen']
        omega

/-! ### Lockstep between the merge loop and the cut replay -/

theorem map_items_toSimple (cs : List ClusterNode) :
    (cs.map toSimple).map SimpleCluster.items = cs.map ClusterNode.items := by
  rw [List.map_map]
  rfl

theorem foldl_cutStep_skip (τ : ℚ) (recs : List MergeRec) (cur : List SimpleCluster)
    (h : ∀ r ∈ recs, ¬ r.distance ≤ τ) :
    recs.foldl (cutStep τ) cur = cur := by
  induction recs generalizing cur with
  | nil => rfl
  | cons r t ih =>
    rw [List.foldl_cons,
      show cutStep τ cur r = cur from if_neg (h r (List.mem_cons_self r t))]
    exact ih cur (fun q hq => h q (List.mem_cons_of_mem _ hq))

theorem cut_lockstep (now : Nat) :
    ∀ (fuel : Nat) (st : ClusterState) (τ : ℚ), GoodState st →
      1 ≤ st.clusters.length → st.clusters.length ≤ fuel + 1 →
      ((((clusterIter now fuel st).history.drop st.history.length).foldl (cutStep τ)
          (st.clusters.map toSimple)).map SimpleCluster.items).flatten.Perm
        ((st.clusters.map ClusterNode.items).flatten) ∧
      (((clusterIter now fuel st).history.drop st.history.length).foldl (cutStep τ)
          (st.clusters.map toSimple)).length +
        (((clusterIter now fuel st).history.drop st.history.length).takeWhile
          (fun r => decide (r.distance ≤ τ))).length = st.clusters.length ∧
      (((clusterIter now fuel st).history.drop st.history.length).takeWhile
          (fun r => decide (r.distance ≤ τ))).length + 1 ≤ st.clusters.length := by
  intro fuel
  induction fuel with
  | zero =>
    intro st τ hg h1 hfuel
    rw [clusterIter_zero, List.drop_length]
    refine ⟨?_, ?_, ?_⟩
    · rw [List.foldl_nil, map_items_toSimple]
    · simp
    · simpa using h1
  | succ fuel ih =>
    intro st τ hg h1 hfuel
    rw [clusterIter_succ]
    by_cases hl : st.clusters.length ≤ 1
    · rw [if_pos hl, List.drop_length]
      refine ⟨?_, ?_, ?_⟩
      · rw [List.foldl_nil, map_items_toSimple]
      · simp
      · simpa using h1
    · rw [if_neg hl]
      have h2 : 2 ≤ st.clusters.length := by omega
      have hlen' := clusterStep_length now st h2
      have hg' := goodState_clusterStep now st h2 hg
      obtain ⟨ext, hext⟩ := clusterIter_history_ext now fuel (clusterStep now st)
      have hdrop1 : (clusterIter now fuel (clusterStep now st)).history.drop
          st.history.length =
          ⟨stepPair st, stepMin st, stepNewCluster now st⟩ :: ext := by
        rw [hext, clusterStep_history, List.append_assoc, List.drop_left]
        rfl
      have hdrop2 : (clusterIter now fuel (clusterStep now st)).history.drop
          (clusterStep now st).history.length = ext := by
        rw [hext, List.drop_left]
      rw [hdrop1]
      by_cases hτ : stepMin st ≤ τ
      · have happly : cutStep τ (st.clusters.map toSimple)
            ⟨stepPair st, stepMin st, stepNewCluster now st⟩ =
            (clusterStep now st).clusters.map toSimple := by
          show (if stepMin st ≤ τ then _ else _) = _
          rw [if_pos hτ]
          show removeTwo (st.clusters.map toSimple) (stepPair st).1 (stepPair st).2 ++
              [⟨(stepNewCluster now st).cid, (stepNewCluster now st).items⟩] = _
          show _ = (removeTwo st.clusters (stepPair st).1 (stepPair st).2 ++
            [stepNewCluster now st]).map toSimple
          rw [List.map_append, removeTwo_map]
          rfl
        obtain ⟨ihperm, ihlen, ihbound⟩ := ih (clusterStep now st) τ hg'
          (by omega) (by omega)
        rw [hdrop2] at ihperm ihlen ihbound
        rw [List.foldl_cons, happly]
        have htw : (List.takeWhile (fun r => decide (r.distance ≤ τ))
            ((⟨stepPair st, stepMin st, stepNewCluster now st⟩ : MergeRec) :: ext)).length =
            (List.takeWhile (fun r => decide (r.distance ≤ τ)) ext).length + 1 := by
          simp [List.takeWhile_cons, hτ]
        refine ⟨?_, ?_, ?_⟩
        · exact ihperm.trans
            (clusterStep_flatten_perm ClusterNode.items now st h2 rfl)
        · rw [htw]
          omega
        · rw [htw]
          omega
      · have hfingood := clusterIter_good now fuel (clusterStep now st) hg'
        have hsorted := hfingood.2.1
        rw [hext, clusterStep_history, List.append_assoc, List.map_append,
          List.pairwise_append] at hsorted
        have hconsext : ((([⟨stepPair st, stepMin st, stepNewCluster now st⟩] : List MergeRec) ++
            ext).map MergeRec.distance).Pairwise (· ≤ ·) := hsorted.2.1
        rw [List.map_append, List.pairwise_append] at hconsext
        have hextgt : ∀ r ∈ ext, ¬ r.distance ≤ τ := by
          intro r hr hc
          have hle : stepMin st ≤ r.distance := by
            have := hconsext.2.2 (stepMin st) (by simp) r.distance
              (List.mem_map.2 ⟨r, hr, rfl⟩)
            exact this
          exact hτ (le_trans hle hc)
        have hskip0 : cutStep τ (st.clusters.map toSimple)
            ⟨stepPair st, stepMin st, stepNewCluster now st⟩ =
            st.clusters.map toSimple := by
          show (if stepMin st ≤ τ then _ else _) = _
          rw [if_neg hτ]
        rw [List.foldl_cons, hskip0, foldl_cutStep_skip τ ext _ hextgt]
        have htw : (List.takeWhile (fun r => decide (r.distance ≤ τ))
            ((⟨stepPair st, stepMin st, stepNewCluster now st⟩ : MergeRec) :: ext)).length =
            0 := by
          simp [List.takeWhile_cons, hτ]
        refine ⟨?_, ?_, ?_⟩
        · rw [map_items_toSimple]
        · rw [htw]
          simp
        · rw [htw]
          simpa using h1

/-! ### From the loop to `computeHierarchicalClustering` -/

theorem flatten_map_singleton (l : List α) : (l.map (fun x => [x])).flatten = l := by
  induction l with
  | nil => rfl
  | cons x t ih => simp [ih]

theorem build_leafIds (cardIds cardLabels : List String) (c : ClusterNode) :
    (buildDendrogramTree cardIds cardLabels c).leafIds = c.treeLeaves := by
  induction c with
  | single i it d => rfl
  | merge i it l r d ihl ihr =>
    show (buildDendrogramTree cardIds cardLabels l).leafIds ++
      (buildDendrogramTree cardIds cardLabels r).leafIds = _
    rw [ihl, ihr]
    rfl

theorem build_internalCount (cardIds cardLabels : List String) (c : ClusterNode) :
    (buildDendrogramTree cardIds cardLabels c).internalCount = c.treeInternal := by
  induction c with
  | single i it d => rfl
  | merge i it l r d ihl ihr =>
    show (buildDendrogramTree cardIds cardLabels l).internalCount +
      (buildDendrogramTree cardIds cardLabels r).internalCount + 1 = _
    rw [ihl, ihr]
    rfl

theorem initial_clusters_length (sm : SimilarityMatrix) :
    (initialState sm).clusters.length = sm.cardIds.length := by
  simp [initialState]

theorem initial_leaves_flatten (sm : SimilarityMatrix) :
    (((initialState sm).clusters.map ClusterNode.treeLeaves).flatten) = sm.cardIds := by
  show ((sm.cardIds.map (fun id => ClusterNode.single id [id] 0)).map
    ClusterNode.treeLeaves).flatten = sm.cardIds
  rw [List.map_map]
  exact flatten_map_singleton sm.cardIds

theorem initial_items_flatten (sm : SimilarityMatrix) :
    (((initialState sm).clusters.map ClusterNode.items).flatten) = sm.cardIds := by
  show ((sm.cardIds.map (fun id => ClusterNode.single id [id] 0)).map
    ClusterNode.items).flatten = sm.cardIds
  rw [List.map_map]
  exact flatten_map_singleton sm.cardIds

theorem initial_internal_sum (sm : SimilarityMatrix) :
    ((initialState sm).clusters.map ClusterNode.treeInternal).sum = 0 := by
  show ((sm.cardIds.map (fun id => ClusterNode.single id [id] 0)).map
    ClusterNode.treeInternal).sum = 0
  rw [List.map_map]
  induction sm.cardIds with
  | nil => rfl
  | cons x t ih =>
    rw [List.map_cons, List.sum_cons, ih]
    rfl

theorem mget_oob (m : List (List ℚ)) (n : Nat) (hlen : m.length = n)
    (hrow : ∀ row ∈ m, row.length = n) {a b : Nat} (hab : ¬(a < n ∧ b < n)) :
    mget m a b = 0 := by
  unfold mget
  by_cases ha : a < n
  · have hb : ¬ b < n := fun hc => hab ⟨ha, hc⟩
    have ham : a < m.length := by omega
    have hrl : (m.getD a []).length = n := by
      refine hrow _ ?_
      rw [getD_of_lt _ _ ham]
      exact List.get_mem _ _ _
    exact List.getD_eq_default _ _ (by omega)
  · rw [List.getD_eq_default m [] (show m.length ≤ a by omega), List.getD_nil]

theorem matrixWF_symm (sm : SimilarityMatrix) (hwf : MatrixWF sm) :
    ∀ a b, mget sm.matrix a b = mget sm.matrix b a := by
  intro a b
  by_cases ha : a < sm.cardIds.length
  · by_cases hb : b < sm.cardIds.length
    · exact hwf.2.2 a (List.mem_range.2 ha) b (List.mem_range.2 hb)
    · rw [mget_oob sm.matrix sm.cardIds.length hwf.1 hwf.2.1 (fun hc => hb hc.2),
        mget_oob sm.matrix sm.cardIds.length hwf.1 hwf.2.1 (fun hc => hb hc.1)]
  · rw [mget_oob sm.matrix sm.cardIds.length hwf.1 hwf.2.1 (fun hc => ha hc.1),
      mget_oob sm.matrix sm.cardIds.length hwf.1 hwf.2.1 (fun hc => ha hc.2)]

theorem mget_map_matrix (m : List (List ℚ)) (f : ℚ → ℚ) (n : Nat)
    (hlen : m.length = n) (hrow : ∀ row ∈ m, row.length = n) (a b : Nat) :
    mget (m.map (fun row => row.map f)) a b =
      if a < n ∧ b < n then f (mget m a b) else 0 := by
  unfold mget
  by_cases ha : a < n
  · have ham : a < m.length := by omega
    rw [getD_map_of_lt (fun row => row.map f) m [] [] ham]
    have hrl : (m.getD a []).length = n := by
      refine hrow _ ?_
      rw [getD_of_lt _ _ ham]
      exact List.get_mem _ _ _
    by_cases hb : b < n
    · rw [if_pos ⟨ha, hb⟩, getD_map_of_lt f (m.getD a []) 0 0 (by omega)]
    · have hle : ((m.getD a []).map f).length ≤ b := by
        rw [List.length_map]
        omega
      rw [if_neg (fun hc => hb hc.2), List.getD_eq_default _ _ hle]
  · have hle : (m.map (fun row => row.map f)).length ≤ a := by
      rw [List.length_map]
      omega
    rw [if_neg (fun hc => ha hc.1), List.getD_eq_default _ _ hle, List.getD_nil]

theorem initial_dist_characterization (sm : SimilarityMatrix) (hwf : MatrixWF sm)
    (a b : Nat) :
    mget (initialState sm).dist a b =
      if a < sm.cardIds.length ∧ b < sm.cardIds.length then
        1 - mget sm.matrix a b
      else 0 := by
  show mget (sm.matrix.map (fun row => row.map (fun s => 1 - s))) a b = _
  exact mget_map_matrix sm.matrix (fun s => 1 - s) sm.cardIds.length hwf.1 hwf.2.1 a b

theorem goodState_initial (sm : SimilarityMatrix) (hwf : MatrixWF sm) :
    GoodState (initialState sm) := by
  refine ⟨?_, ?_, ?_⟩
  · intro a b
    rw [initial_dist_characterization sm hwf a b,
      initial_dist_characterization sm hwf b a, matrixWF_symm sm hwf a b]
    split_ifs <;> first | rfl | omega
  · show (([] : List MergeRec).map MergeRec.distance).Pairwise (· ≤ ·)
    simp
  · intro r hr
    cases hr

theorem initial_history (sm : SimilarityMatrix) : (initialState sm).history = [] := rfl

/-- C10 support: with zero cards the loop never runs and the head dereference
fails (`none` = the thrown `TypeError`). -/
theorem computeHC_empty (sm : SimilarityMatrix) (now : Nat) (hids : sm.cardIds = []) :
    computeHierarchicalClustering sm now = none ∧
    (clusterIter now sm.cardIds.length (initialState sm)).history = [] := by
  have hcl : (initialState sm).clusters = [] := by
    show sm.cardIds.map (fun id => ClusterNode.single id [id] 0) = []
    rw [hids]
    rfl
  have hlen0 : sm.cardIds.length = 0 := by
    rw [hids]
    rfl
  have hit : clusterIter now sm.cardIds.length (initialState sm) = initialState sm := by
    rw [hlen0, clusterIter_zero]
  constructor
  · simp only [computeHierarchicalClustering]
    rw [hit, hcl]
  · rw [hit]
    rfl

/-- The shape of a successful clustering run: the final single cluster and the
resulting analysis. -/
theorem computeHC_some (sm : SimilarityMatrix) (now : Nat)
    (h1 : 1 ≤ sm.cardIds.length) :
    ∃ c, (clusterIter now sm.cardIds.length (initialState sm)).clusters = [c] ∧
      computeHierarchicalClustering sm now = some
        { root := buildDendrogramTree sm.cardIds sm.cardLabels c
          suggestedClusters := generateSuggestedClusters
            (clusterIter now sm.cardIds.length (initialState sm)).history
            sm.cardIds sm.cardLabels } := by
  have hstr := clusterIter_structure now sm.cardIds.length (initialState sm)
    (by rw [initial_clusters_length]; omega)
    (by rw [initial_clusters_length]; omega)
  obtain ⟨c, hc⟩ := List.length_eq_one.1 hstr.1
  refine ⟨c, hc, ?_⟩
  simp only [computeHierarchicalClustering]
  rw [hc]

/-- Shape of the dendrogram built from the loop's final cluster. -/
theorem root_shape (sm : SimilarityMatrix) (now : Nat)
    (h1 : 1 ≤ sm.cardIds.length) (c : ClusterNode)
    (hc : (clusterIter now sm.cardIds.length (initialState sm)).clusters = [c]) :
    (buildDendrogramTree sm.cardIds sm.cardLabels c).leafIds.Perm sm.cardIds ∧
    (buildDendrogramTree sm.cardIds sm.cardLabels c).leafIds.length =
      sm.cardIds.length ∧
    (buildDendrogramTree sm.cardIds sm.cardLabels c).internalCount =
      sm.cardIds.length - 1 := by
  have hstr := clusterIter_structure now sm.cardIds.length (initialState sm)
    (by rw [initial_clusters_length]; omega)
    (by rw [initial_clusters_length]; omega)
  obtain ⟨hlen1, hleaf, hitems, hsum⟩ := hstr
  rw [hc] at hleaf hsum
  simp only [List.map_cons, List.map_nil, List.flatten_cons, List.flatten_nil,
    List.append_nil, List.sum_cons, List.sum_nil] at hleaf hsum
  rw [initial_leaves_flatten] at hleaf
  rw [initial_internal_sum, initial_clusters_length] at hsum
  refine ⟨?_, ?_, ?_⟩
  · rw [build_leafIds]
    exact hleaf
  · rw [build_leafIds]
    rw [hleaf.length_eq]
  · rw [build_internalCount]
    omega

/-- C4: for `n ≥ 2` cards the dendrogram root has exactly the `n` input card
ids as leaves (as a multiset: none missing, none duplicated) and exactly
`n - 1` internal nodes. -/
theorem dendrogram_completeness (sm : SimilarityMatrix) (now : Nat)
    (h2 : 2 ≤ sm.cardIds.length) :
    ∃ ca, computeHierarchicalClustering sm now = some ca ∧
      ca.root.leafIds.Perm sm.cardIds ∧
      ca.root.leafIds.length = sm.cardIds.length ∧
      ca.root.internalCount = sm.cardIds.length - 1 := by
  obtain ⟨c, hc, hca⟩ := computeHC_some sm now (by omega)
  obtain ⟨hperm, hlen, hint⟩ := root_shape sm now (by omega) c hc
  exact ⟨_, hca, hperm, hlen, hint⟩

/-- C10: with an empty matrix (zero cards) the merge loop never runs and
`buildDendrogramTree` dereferences the `undefined` value `clusters[0]`; the
resulting `TypeError` is modelled as a `none` result, and the recorded merge
history is empty. -/
theorem clustering_zero_cards_typeerror (sm : SimilarityMatrix) (now : Nat)
    (hids : sm.cardIds = []) (hmat : sm.matrix = []) :
    computeHierarchicalClustering sm now = none ∧
    (clusterIter now sm.cardIds.length (initialState sm)).history = [] :=
  computeHC_empty sm now hids

/-- C10 witness: the concrete empty matrix. -/
theorem clustering_zero_cards_typeerror_witness :
    computeHierarchicalClustering ⟨[], [], [], 0⟩ 0 = none ∧
    (clusterIter 0 ([] : List String).length (initialState ⟨[], [], [], 0⟩)).history = [] :=
  clustering_zero_cards_typeerror ⟨[], [], [], 0⟩ 0 rfl rfl

/-- C4 witness: a concrete 2-card similarity matrix. -/
theorem dendrogram_completeness_witness :
    2 ≤ (SimilarityMatrix.mk ["a", "b"] ["A", "B"] [[1, 0], [0, 1]] 0).cardIds.length ∧
    ∃ ca, computeHierarchicalClustering
        (SimilarityMatrix.mk ["a", "b"] ["A", "B"] [[1, 0], [0, 1]] 0) 7 = some ca ∧
      ca.root.leafIds.Perm
        (SimilarityMatrix.mk ["a", "b"] ["A", "B"] [[1, 0], [0, 1]] 0).cardIds ∧
      ca.root.leafIds.length =
        (SimilarityMatrix.mk ["a", "b"] ["A", "B"] [[1, 0], [0, 1]] 0).cardIds.length ∧
      ca.root.internalCount =
        (SimilarityMatrix.mk ["a", "b"] ["A", "B"] [[1, 0], [0, 1]] 0).cardIds.length - 1 :=
  ⟨by decide,
    dendrogram_completeness (SimilarityMatrix.mk ["a", "b"] ["A", "B"] [[1, 0], [0, 1]] 0)
      7 (by decide)⟩

/-! ### Cuts are partitions and shrink with the threshold (C3, C7) -/

theorem cutAt_eq_foldl_initial (sm : SimilarityMatrix) (τ : ℚ) (hist : List MergeRec) :
    cutAt hist sm.cardIds τ =
      hist.foldl (cutStep τ) ((initialState sm).clusters.map toSimple) := by
  unfold cutAt
  congr 1
  show sm.cardIds.map (fun id => (⟨id, [id]⟩ : SimpleCluster)) =
    (sm.cardIds.map (fun id => ClusterNode.single id [id] 0)).map toSimple
  rw [List.map_map]
  rfl

theorem cut_facts (sm : SimilarityMatrix) (now : Nat) (τ : ℚ) (hwf : MatrixWF sm)
    (h1 : 1 ≤ sm.cardIds.length) :
    (((cutAt (clusterIter now sm.cardIds.length (initialState sm)).history
        sm.cardIds τ).map SimpleCluster.items).flatten).Perm sm.cardIds ∧
    (cutAt (clusterIter now sm.cardIds.length (initialState sm)).history
        sm.cardIds τ).length +
      ((clusterIter now sm.cardIds.length (initialState sm)).history.takeWhile
        (fun r => decide (r.distance ≤ τ))).length = sm.cardIds.length := by
  have hlock := cut_lockstep now sm.cardIds.length (initialState sm) τ
    (goodState_initial sm hwf) (by rw [initial_clusters_length]; omega)
    (by rw [initial_clusters_length]; omega)
  rw [initial_history] at hlock
  simp only [List.length_nil, List.drop_zero] at hlock
  rw [← cutAt_eq_foldl_initial sm τ _] at hlock
  rw [initial_items_flatten, initial_clusters_length] at hlock
  exact ⟨hlock.1, hlock.2.1⟩

theorem enum_map_snd_comp (l : List α) (g : α → β) :
    l.enum.map (fun p => g p.2) = l.map g := by
  rw [show (fun p : Nat × α => g p.2) = g ∘ Prod.snd from rfl, ← List.map_map,
    List.enum_map_snd]

/-- The `cardIds` lists of one generated cut are exactly the replay clusters'
`items`. -/
theorem generated_cut_cardIds (hist : List MergeRec) (cardIds cardLabels : List String)
    (τ : ℚ) :
    (((cutAt hist cardIds τ).enum.map (fun ic =>
      ({ id := ic.2.id
         name := "Cluster " ++ toString (ic.1 + 1)
         cardIds := ic.2.items
         cardLabels := ic.2.items.map (fun id =>
           if id ∈ cardIds then cardLabels.getD (cardIds.indexOf id) id else id) }
        : SuggestedCluster))).map SuggestedCluster.cardIds) =
    (cutAt hist cardIds τ).map SimpleCluster.items := by
  rw [List.map_map]
  exact enum_map_snd_comp (cutAt hist cardIds τ) SimpleCluster.items

/-- C3: every suggested cut of a well-formed similarity matrix is a partition
of the card ids: flattening the cut gives the card-id list up to permutation,
and (for duplicate-free inputs) every card id occurs exactly once. -/
theorem cluster_cut_partition (sm : SimilarityMatrix) (now : Nat)
    (hwf : MatrixWF sm) :
    ∀ ca, computeHierarchicalClustering sm now = some ca →
      ∀ tc ∈ ca.suggestedClusters,
        ((tc.clusters.map SuggestedCluster.cardIds).flatten).Perm sm.cardIds ∧
        (sm.cardIds.Nodup → ∀ id ∈ sm.cardIds,
          ((tc.clusters.map SuggestedCluster.cardIds).flatten).count id = 1) := by
  intro ca hca tc htc
  have h1 : 1 ≤ sm.cardIds.length := by
    by_contra hn
    have hids : sm.cardIds = [] := by
      cases hl : sm.cardIds with
      | nil => rfl
      | cons x t => rw [hl] at hn; simp at hn
    rw [(computeHC_empty sm now hids).1] at hca
    cases hca
  obtain ⟨c, hc, hca2⟩ := computeHC_some sm now h1
  rw [hca2] at hca
  obtain rfl : _ = ca := Option.some.inj hca
  simp only [generateSuggestedClusters, List.mem_map] at htc
  obtain ⟨τ, hτ, rfl⟩ := htc
  have hkey := generated_cut_cardIds
    (clusterIter now sm.cardIds.length (initialState sm)).history
    sm.cardIds sm.cardLabels τ
  have hfacts := cut_facts sm now τ hwf h1
  constructor
  · rw [hkey]
    exact hfacts.1
  · intro hnd id hid
    rw [hkey]
    rw [hfacts.1.count_eq]
    exact List.count_eq_one_of_mem hnd hid

theorem length_takeWhile_mono {p q : α → Bool} (l : List α)
    (h : ∀ a, p a = true → q a = true) :
    (l.takeWhile p).length ≤ (l.takeWhile q).length := by
  induction l with
  | nil => simp
  | cons x t ih =>
    rw [List.takeWhile_cons, List.takeWhile_cons]
    cases hp : p x
    · simp
    · rw [h x hp]
      simpa using ih

/-- C7: the suggested cut at threshold 0.3 has at least as many clusters as
the cut at threshold 0.7. -/
theorem cut_count_monotonic (sm : SimilarityMatrix) (now : Nat)
    (hwf : MatrixWF sm) :
    ∀ ca, computeHierarchicalClustering sm now = some ca →
      ∃ t3 t5 t7, ca.suggestedClusters = [t3, t5, t7] ∧
        t3.threshold = 3/10 ∧ t5.threshold = 5/10 ∧ t7.threshold = 7/10 ∧
        t7.clusters.length ≤ t3.clusters.length := by
  intro ca hca
  have h1 : 1 ≤ sm.cardIds.length := by
    by_contra hn
    have hids : sm.cardIds = [] := by
      cases hl : sm.cardIds with
      | nil => rfl
      | cons x t => rw [hl] at hn; simp at hn
    rw [(computeHC_empty sm now hids).1] at hca
    cases hca
  obtain ⟨c, hc, hca2⟩ := computeHC_some sm now h1
  rw [hca2] at hca
  obtain rfl : _ = ca := Option.some.inj hca
  refine ⟨_, _, _, rfl, rfl, rfl, rfl, ?_⟩
  have hlen : ∀ τ : ℚ,
      ((cutAt (clusterIter now sm.cardIds.length (initialState sm)).history
        sm.cardIds τ).enum.map (fun ic =>
        ({ id := ic.2.id
           name := "Cluster " ++ toString (ic.1 + 1)
           cardIds := ic.2.items
           cardLabels := ic.2.items.map (fun id =>
             if id ∈ sm.cardIds then sm.cardLabels.getD (sm.cardIds.indexOf id) id
             else id) } : SuggestedCluster))).length =
      (cutAt (clusterIter now sm.cardIds.length (initialState sm)).history
        sm.cardIds τ).length := by
    intro τ
    rw [List.length_map, List.enum_length]
  show (((cutAt _ sm.cardIds ((7 : ℚ)/10)).enum.map _).length ≤
    ((cutAt _ sm.cardIds ((3 : ℚ)/10)).enum.map _).length)
  rw [hlen, hlen]
  have hf3 := (cut_facts sm now ((3 : ℚ)/10) hwf h1).2
  have hf7 := (cut_facts sm now ((7 : ℚ)/10) hwf h1).2
  have hmono := length_takeWhile_mono
    (p := fun r : MergeRec => decide (r.distance ≤ (3 : ℚ)/10))
    (q := fun r : MergeRec => decide (r.distance ≤ (7 : ℚ)/10))
    (clusterIter now sm.cardIds.length (initialState sm)).history
    (by
      intro r hr
      simp only [decide_eq_true_eq] at hr ⊢
      linarith)
  omega

/-! ### C6: selection rule and linkage rule of one merge step -/

/-- C6: the selected pair is the minimum (ties broken by the first pair in
row-major scan order), and the merged cluster's distances are the unweighted
averages of its two parts' distances. -/
theorem merge_step_selection_and_linkage (now : Nat) (st : ClusterState)
    (h2 : 2 ≤ st.clusters.length) : MergeStepSpec now st := by
  obtain ⟨hb, hval, hall, pre, post, hsplit, hpre⟩ :=
    findMinPair_spec st.dist st.clusters.length h2
  refine ⟨hb, ?_, ⟨pre, post, hsplit, hpre⟩, rfl, ?_⟩
  · intro a b hab hbn
    exact hall (a, b) (mem_pairList.2 ⟨hab, hbn⟩)
  · intro a ha
    constructor
    · rw [clusterStep_dist, mget_stepDist,
        if_neg (fun hc => lt_irrefl _ hc.2), if_pos ⟨ha, rfl⟩]
    · rw [clusterStep_dist, mget_stepDist,
        if_neg (fun hc => lt_irrefl _ hc.1),
        if_neg (fun hc => lt_irrefl _ hc.1), if_pos ⟨rfl, ha⟩]

/-- C6 witness: a concrete 3-cluster state. -/
theorem merge_step_selection_and_linkage_witness :
    2 ≤ (ClusterState.mk
      [ClusterNode.single "a" ["a"] 0, ClusterNode.single "b" ["b"] 0,
        ClusterNode.single "c" ["c"] 0]
      [[0, 1, 1/2], [1, 0, 1/2], [1/2, 1/2, 0]] []).clusters.length ∧
    MergeStepSpec 9 (ClusterState.mk
      [ClusterNode.single "a" ["a"] 0, ClusterNode.single "b" ["b"] 0,
        ClusterNode.single "c" ["c"] 0]
      [[0, 1, 1/2], [1, 0, 1/2], [1/2, 1/2, 0]] []) :=
  ⟨by decide,
    merge_step_selection_and_linkage 9 (ClusterState.mk
      [ClusterNode.single "a" ["a"] 0, ClusterNode.single "b" ["b"] 0,
        ClusterNode.single "c" ["c"] 0]
      [[0, 1, 1/2], [1, 0, 1/2], [1/2, 1/2, 0]] []) (by decide)⟩

/-- C3 witness: a concrete well-formed 3-card matrix.  The extra `isSome`
conjunct shows the implication in the conclusion is not vacuous there. -/
theorem cluster_cut_partition_witness :
    MatrixWF (SimilarityMatrix.mk ["a", "b", "c"] ["A", "B", "C"]
      [[1, 1, 0], [1, 1, 0], [0, 0, 1]] 2) ∧
    (computeHierarchicalClustering (SimilarityMatrix.mk ["a", "b", "c"] ["A", "B", "C"]
      [[1, 1, 0], [1, 1, 0], [0, 0, 1]] 2) 5).isSome = true ∧
    (∀ ca, computeHierarchicalClustering (SimilarityMatrix.mk ["a", "b", "c"]
        ["A", "B", "C"] [[1, 1, 0], [1, 1, 0], [0, 0, 1]] 2) 5 = some ca →
      ∀ tc ∈ ca.suggestedClusters,
        ((tc.clusters.map SuggestedCluster.cardIds).flatten).Perm
          (SimilarityMatrix.mk ["a", "b", "c"] ["A", "B", "C"]
            [[1, 1, 0], [1, 1, 0], [0, 0, 1]] 2).cardIds ∧
        ((SimilarityMatrix.mk ["a", "b", "c"] ["A", "B", "C"]
            [[1, 1, 0], [1, 1, 0], [0, 0, 1]] 2).cardIds.Nodup →
          ∀ id ∈ (SimilarityMatrix.mk ["a", "b", "c"] ["A", "B", "C"]
            [[1, 1, 0], [1, 1, 0], [0, 0, 1]] 2).cardIds,
          ((tc.clusters.map SuggestedCluster.cardIds).flatten).count id = 1)) :=
  ⟨by unfold MatrixWF; decide,
    by
      obtain ⟨c, hcl, hc⟩ := computeHC_some (SimilarityMatrix.mk ["a", "b", "c"]
        ["A", "B", "C"] [[1, 1, 0], [1, 1, 0], [0, 0, 1]] 2) 5 (by decide)
      rw [hc]
      rfl,
    cluster_cut_partition (SimilarityMatrix.mk ["a", "b", "c"] ["A", "B", "C"]
      [[1, 1, 0], [1, 1, 0], [0, 0, 1]] 2) 5 (by unfold MatrixWF; decide)⟩

/-- C7 witness: a concrete well-formed 3-card matrix for the monotonicity
statement. -/
theorem cut_count_monotonic_witness :
    MatrixWF (SimilarityMatrix.mk ["x", "y", "z"] ["X", "Y", "Z"]
      [[1, 0, 0], [0, 1, 0], [0, 0, 1]] 2) ∧
    (computeHierarchicalClustering (SimilarityMatrix.mk ["x", "y", "z"] ["X", "Y", "Z"]
      [[1, 0, 0], [0, 1, 0], [0, 0, 1]] 2) 3).isSome = true ∧
    (∀ ca, computeHierarchicalClustering (SimilarityMatrix.mk ["x", "y", "z"]
        ["X", "Y", "Z"] [[1, 0, 0], [0, 1, 0], [0, 0, 1]] 2) 3 = some ca →
      ∃ t3 t5 t7, ca.suggestedClusters = [t3, t5, t7] ∧
        t3.threshold = 3/10 ∧ t5.threshold = 5/10 ∧ t7.threshold = 7/10 ∧
        t7.clusters.length ≤ t3.clusters.length) :=
  ⟨by unfold MatrixWF; decide,
    by
      obtain ⟨c, hcl, hc⟩ := computeHC_some (SimilarityMatrix.mk ["x", "y", "z"]
        ["X", "Y", "Z"] [[1, 0, 0], [0, 1, 0], [0, 0, 1]] 2) 3 (by decide)
      rw [hc]
      rfl,
    cut_count_monotonic (SimilarityMatrix.mk ["x", "y", "z"] ["X", "Y", "Z"]
      [[1, 0, 0], [0, 1, 0], [0, 0, 1]] 2) 3 (by unfold MatrixWF; decide)⟩

/-! ### C1: determinism up to the clock-derived fields -/

theorem scrubCN_items (c : ClusterNode) : (scrubCN c).items = c.items := by
  cases c <;> rfl

theorem timeRel_lengths {st₁ st₂ : ClusterState} (h : TimeRel st₁ st₂) :
    st₁.clusters.length = st₂.clusters.length := by
  have := congrArg List.length h.1
  simpa using this

theorem timeRel_stepPair {st₁ st₂ : ClusterState} (h : TimeRel st₁ st₂) :
    stepPair st₁ = stepPair st₂ := by
  unfold stepPair
  rw [h.2.1, timeRel_lengths h]

theorem timeRel_stepMin {st₁ st₂ : ClusterState} (h : TimeRel st₁ st₂) :
    stepMin st₁ = stepMin st₂ := by
  unfold stepMin
  rw [h.2.1, timeRel_stepPair h]

theorem timeRel_stepKept {st₁ st₂ : ClusterState} (h : TimeRel st₁ st₂) :
    stepKept st₁ = stepKept st₂ := by
  unfold stepKept
  rw [timeRel_lengths h, timeRel_stepPair h]

theorem timeRel_getD {st₁ st₂ : ClusterState} (h : TimeRel st₁ st₂) (i : Nat) :
    scrubCN (st₁.clusters.getD i default) = scrubCN (st₂.clusters.getD i default) := by
  have h1 : (st₁.clusters.map scrubCN).getD i (scrubCN default) =
      scrubCN (st₁.clusters.getD i default) := List.getD_map _ _ scrubCN
  have h2 : (st₂.clusters.map scrubCN).getD i (scrubCN default) =
      scrubCN (st₂.clusters.getD i default) := List.getD_map _ _ scrubCN
  rw [← h1, ← h2, h.1]

theorem timeRel_getD_items {st₁ st₂ : ClusterState} (h : TimeRel st₁ st₂) (i : Nat) :
    (st₁.clusters.getD i default).items = (st₂.clusters.getD i default).items := by
  rw [← scrubCN_items, ← scrubCN_items (st₂.clusters.getD i default), timeRel_getD h i]

theorem timeRel_newCluster {st₁ st₂ : ClusterState} (t₁ t₂ : Nat) (h : TimeRel st₁ st₂) :
    scrubCN (stepNewCluster t₁ st₁) = scrubCN (stepNewCluster t₂ st₂) := by
  show ClusterNode.merge "" _ _ _ _ = ClusterNode.merge "" _ _ _ _
  rw [timeRel_getD_items h (stepPair st₁).1, timeRel_getD_items h (stepPair st₁).2,
    timeRel_getD h (stepPair st₁).1, timeRel_getD h (stepPair st₁).2,
    timeRel_stepMin h, timeRel_stepPair h]

theorem timeRel_clusterStep {st₁ st₂ : ClusterState} (t₁ t₂ : Nat) (h : TimeRel st₁ st₂) :
    TimeRel (clusterStep t₁ st₁) (clusterStep t₂ st₂) := by
  refine ⟨?_, ?_, ?_⟩
  · show (removeTwo st₁.clusters (stepPair st₁).1 (stepPair st₁).2 ++
      [stepNewCluster t₁ st₁]).map scrubCN = _
    show _ = (removeTwo st₂.clusters (stepPair st₂).1 (stepPair st₂).2 ++
      [stepNewCluster t₂ st₂]).map scrubCN
    rw [List.map_append, List.map_append, ← removeTwo_map, ← removeTwo_map, h.1,
      List.map_singleton, List.map_singleton, timeRel_newCluster t₁ t₂ h,
      timeRel_stepPair h]
  · show (stepKept st₁).map _ ++ _ = (stepKept st₂).map _ ++ _
    rw [timeRel_stepKept h, timeRel_stepPair h, h.2.1]
  · show (st₁.history ++
        [(⟨stepPair st₁, stepMin st₁, stepNewCluster t₁ st₁⟩ : MergeRec)]).map scrubRec =
      (st₂.history ++
        [(⟨stepPair st₂, stepMin st₂, stepNewCluster t₂ st₂⟩ : MergeRec)]).map scrubRec
    rw [List.map_append, List.map_append, h.2.2, List.map_singleton, List.map_singleton]
    have hrec : scrubRec ⟨stepPair st₁, stepMin st₁, stepNewCluster t₁ st₁⟩ =
        scrubRec ⟨stepPair st₂, stepMin st₂, stepNewCluster t₂ st₂⟩ := by
      simp only [scrubRec]
      rw [timeRel_stepPair h, timeRel_stepMin h, timeRel_newCluster t₁ t₂ h]
    rw [hrec]

theorem timeRel_clusterIter (t₁ t₂ : Nat) :
    ∀ (fuel : Nat) (st₁ st₂ : ClusterState), TimeRel st₁ st₂ →
      TimeRel (clusterIter t₁ fuel st₁) (clusterIter t₂ fuel st₂) := by
  intro fuel
  induction fuel with
  | zero => intro st₁ st₂ h; rw [clusterIter_zero, clusterIter_zero]; exact h
  | succ fuel ih =>
    intro st₁ st₂ h
    rw [clusterIter_succ, clusterIter_succ, ← timeRel_lengths h]
    by_cases hl : st₁.clusters.length ≤ 1
    · rw [if_pos hl, if_pos hl]; exact h
    · rw [if_neg hl, if_neg hl]
      exact ih _ _ (timeRel_clusterStep t₁ t₂ h)

theorem build_scrub (cardIds cardLabels : List String) :
    ∀ c₁ c₂ : ClusterNode, scrubCN c₁ = scrubCN c₂ →
      scrubDendro (buildDendrogramTree cardIds cardLabels c₁) =
      scrubDendro (buildDendrogramTree cardIds cardLabels c₂) := by
  intro c₁
  induction c₁ with
  | single i it d =>
    intro c₂ h
    cases c₂ with
    | single i2 it2 d2 =>
      obtain ⟨rfl, rfl, rfl⟩ : i = i2 ∧ it = it2 ∧ d = d2 := by
        have := h
        simp only [scrubCN, ClusterNode.single.injEq] at this
        exact this
      rfl
    | merge i2 it2 l2 r2 d2 => simp [scrubCN] at h
  | merge i it l r d ihl ihr =>
    intro c₂ h
    cases c₂ with
    | single i2 it2 d2 => simp [scrubCN] at h
    | merge i2 it2 l2 r2 d2 =>
      have hinj : it = it2 ∧ scrubCN l = scrubCN l2 ∧ scrubCN r = scrubCN r2 ∧ d = d2 := by
        simpa [scrubCN, ClusterNode.merge.injEq] using h
      obtain ⟨rfl, hl, hr, rfl⟩ := hinj
      show DendrogramNode.node "" "Cluster" _ _ _ = DendrogramNode.node "" "Cluster" _ _ _
      rw [ihl l2 hl, ihr r2 hr]

theorem cutFold_items_eq (τ : ℚ) :
    ∀ (h₁ h₂ : List MergeRec), h₁.map scrubRec = h₂.map scrubRec →
      ∀ (cur₁ cur₂ : List SimpleCluster),
        cur₁.map SimpleCluster.items = cur₂.map SimpleCluster.items →
        (h₁.foldl (cutStep τ) cur₁).map SimpleCluster.items =
        (h₂.foldl (cutStep τ) cur₂).map SimpleCluster.items := by
  intro h₁
  induction h₁ with
  | nil =>
    intro h₂ hh cur₁ cur₂ hc
    cases h₂ with
    | nil => exact hc
    | cons r t => cases hh
  | cons r₁ t₁ ih =>
    intro h₂ hh cur₁ cur₂ hc
    cases h₂ with
    | nil => cases hh
    | cons r₂ t₂ =>
      rw [List.map_cons, List.map_cons] at hh
      have hhead : scrubRec r₁ = scrubRec r₂ := (List.cons.injEq _ _ _ _ ▸ hh).1
      have htail : t₁.map scrubRec = t₂.map scrubRec := (List.cons.injEq _ _ _ _ ▸ hh).2
      have hmerged : r₁.merged = r₂.merged := by
        have := congrArg MergeRec.merged hhead
        simpa [scrubRec] using this
      have hdist : r₁.distance = r₂.distance := by
        have := congrArg MergeRec.distance hhead
        simpa [scrubRec] using this
      have hitems : r₁.newCluster.items = r₂.newCluster.items := by
        have := congrArg (fun r => ClusterNode.items (MergeRec.newCluster r)) hhead
        simpa [scrubRec, scrubCN_items] using this
      rw [List.foldl_cons, List.foldl_cons]
      refine ih t₂ htail _ _ ?_
      unfold cutStep
      rw [hdist]
      by_cases hτ : r₂.distance ≤ τ
      · rw [if_pos hτ, if_pos hτ, List.map_append, List.map_append,
          ← removeTwo_map, ← removeTwo_map, hc, hmerged]
        show _ ++ [r₁.newCluster.items] = _ ++ [r₂.newCluster.items]
        rw [hitems]
      · rw [if_neg hτ, if_neg hτ]
        exact hc

theorem scrub_generated_cut (cardIds cardLabels : List String) :
    ∀ (l₁ l₂ : List SimpleCluster),
      l₁.map SimpleCluster.items = l₂.map SimpleCluster.items →
      (l₁.enum.map (fun ic =>
        ({ id := ic.2.id
           name := "Cluster " ++ toString (ic.1 + 1)
           cardIds := ic.2.items
           cardLabels := ic.2.items.map (fun id =>
             if id ∈ cardIds then cardLabels.getD (cardIds.indexOf id) id else id) }
          : SuggestedCluster))).map scrubSugg =
      (l₂.enum.map (fun ic =>
        ({ id := ic.2.id
           name := "Cluster " ++ toString (ic.1 + 1)
           cardIds := ic.2.items
           cardLabels := ic.2.items.map (fun id =>
             if id ∈ cardIds then cardLabels.getD (cardIds.indexOf id) id else id) }
          : SuggestedCluster))).map scrubSugg := by
  intro l₁ l₂ hl
  have key : ∀ l : List SimpleCluster,
      l.enum.map (fun ic =>
        ({ id := ""
           name := "Cluster " ++ toString (ic.1 + 1)
           cardIds := ic.2.items
           cardLabels := ic.2.items.map (fun id =>
             if id ∈ cardIds then cardLabels.getD (cardIds.indexOf id) id else id) }
          : SuggestedCluster)) =
      (l.map SimpleCluster.items).enum.map (fun p =>
        ({ id := ""
           name := "Cluster " ++ toString (p.1 + 1)
           cardIds := p.2
           cardLabels := p.2.map (fun id =>
             if id ∈ cardIds then cardLabels.getD (cardIds.indexOf id) id else id) }
          : SuggestedCluster)) := by
    intro l
    rw [List.enum_map, List.map_map]
    rfl
  have key2 : ∀ l : List SimpleCluster,
      ((l.enum.map (fun ic =>
        ({ id := ic.2.id
           name := "Cluster " ++ toString (ic.1 + 1)
           cardIds := ic.2.items
           cardLabels := ic.2.items.map (fun id =>
             if id ∈ cardIds then cardLabels.getD (cardIds.indexOf id) id else id) }
          : SuggestedCluster))).map scrubSugg) =
      (l.map SimpleCluster.items).enum.map (fun p =>
        ({ id := ""
           name := "Cluster " ++ toString (p.1 + 1)
           cardIds := p.2
           cardLabels := p.2.map (fun id =>
             if id ∈ cardIds then cardLabels.getD (cardIds.indexOf id) id else id) }
          : SuggestedCluster)) := by
    intro l
    rw [List.map_map]
    exact key l
  rw [key2 l₁, key2 l₂, hl]

theorem scrub_generateSuggestedClusters (cardIds cardLabels : List String)
    (h₁ h₂ : List MergeRec) (hh : h₁.map scrubRec = h₂.map scrubRec) :
    (generateSuggestedClusters h₁ cardIds cardLabels).map scrubCut =
    (generateSuggestedClusters h₂ cardIds cardLabels).map scrubCut := by
  unfold generateSuggestedClusters
  rw [List.map_map, List.map_map]
  refine List.map_congr_left ?_
  intro τ hτ
  show scrubCut _ = scrubCut _
  unfold scrubCut
  have hitems : (cutAt h₁ cardIds τ).map SimpleCluster.items =
      (cutAt h₂ cardIds τ).map SimpleCluster.items :=
    cutFold_items_eq τ h₁ h₂ hh _ _ rfl
  have := scrub_generated_cut cardIds cardLabels (cutAt h₁ cardIds τ)
    (cutAt h₂ cardIds τ) hitems
  simp only at this ⊢
  rw [this]

theorem computeHC_scrub (sm : SimilarityMatrix) (t₁ t₂ : Nat) :
    (computeHierarchicalClustering sm t₁).map scrubCA =
    (computeHierarchicalClustering sm t₂).map scrubCA := by
  have hfin := timeRel_clusterIter t₁ t₂ sm.cardIds.length
    (initialState sm) (initialState sm) ⟨rfl, rfl, rfl⟩
  simp only [computeHierarchicalClustering]
  cases hc₁ : (clusterIter t₁ sm.cardIds.length (initialState sm)).clusters with
  | nil =>
    cases hc₂ : (clusterIter t₂ sm.cardIds.length (initialState sm)).clusters with
    | nil => rfl
    | cons c₂ t₂' =>
      exfalso
      have := hfin.1
      rw [hc₁, hc₂] at this
      cases this
  | cons c₁ t₁' =>
    cases hc₂ : (clusterIter t₂ sm.cardIds.length (initialState sm)).clusters with
    | nil =>
      exfalso
      have := hfin.1
      rw [hc₁, hc₂] at this
      cases this
    | cons c₂ t₂' =>
      have hheads : scrubCN c₁ = scrubCN c₂ := by
        have := hfin.1
        rw [hc₁, hc₂, List.map_cons, List.map_cons] at this
        exact (List.cons.injEq _ _ _ _ ▸ this).1
      show some (scrubCA _) = some (scrubCA _)
      unfold scrubCA
      simp only
      rw [build_scrub sm.cardIds sm.cardLabels c₁ c₂ hheads,
        scrub_generateSuggestedClusters sm.cardIds sm.cardLabels _ _ hfin.2.2]

/-- C1 (amended): two runs with identical inputs agree on everything except
the clock-derived data (`analyzedAt` and the generated ids of merge nodes and
merged cut clusters, which embed `Date.now()`). -/
theorem runFullAnalysis_deterministic_up_to_ids (sid sname : String)
    (sessions : List SortingSession) (cards : List Card) (t₁ t₂ : Nat) :
    (runFullAnalysis sid sname sessions cards t₁).map scrubResults =
    (runFullAnalysis sid sname sessions cards t₂).map scrubResults := by
  have hk := computeHC_scrub (computeSimilarityMatrix
    (sessions.filter (fun s => decide (s.participant.completedAt ≠ none))) cards) t₁ t₂
  simp only [runFullAnalysis]
  cases h₁ : computeHierarchicalClustering (computeSimilarityMatrix
      (sessions.filter (fun s => decide (s.participant.completedAt ≠ none))) cards) t₁ with
  | none =>
    cases h₂ : computeHierarchicalClustering (computeSimilarityMatrix
        (sessions.filter (fun s => decide (s.participant.completedAt ≠ none))) cards) t₂ with
    | none => rfl
    | some ca₂ =>
      rw [h₁, h₂] at hk
      cases hk
  | some ca₁ =>
    cases h₂ : computeHierarchicalClustering (computeSimilarityMatrix
        (sessions.filter (fun s => decide (s.participant.completedAt ≠ none))) cards) t₂ with
    | none =>
      rw [h₁, h₂] at hk
      cases hk
    | some ca₂ =>
      have hscrub : scrubCA ca₁ = scrubCA ca₂ := by
        rw [h₁, h₂] at hk
        simpa using hk
      show some (scrubResults _) = some (scrubResults _)
      unfold scrubResults
      simp only
      rw [hscrub]

theorem runFullAnalysis_analyzedAt (sid sname : String)
    (sessions : List SortingSession) (cards : List Card) (now : Nat)
    (h1 : 1 ≤ cards.length) :
    ∃ r, runFullAnalysis sid sname sessions cards now = some r ∧
      r.analyzedAt = now := by
  have hlen : (computeSimilarityMatrix
      (sessions.filter (fun s => decide (s.participant.completedAt ≠ none)))
      cards).cardIds.length = cards.length := by
    show (cards.map Card.id).length = cards.length
    simp
  obtain ⟨c, hc, hsome⟩ := computeHC_some (computeSimilarityMatrix
    (sessions.filter (fun s => decide (s.participant.completedAt ≠ none))) cards) now
    (by omega)
  simp only [runFullAnalysis]
  rw [hsome]
  exact ⟨_, rfl, rfl⟩

/-- C1 counterexample: two calls to `runFullAnalysis` with identical inputs
but different clock values produce different results (the `analyzedAt` field
records `Date.now()`), so the output is not deep-equal across calls. -/
theorem runFullAnalysis_clock_dependent :
    runFullAnalysis "s" "n" [] [⟨"a", "A"⟩] 0 ≠
    runFullAnalysis "s" "n" [] [⟨"a", "A"⟩] 1 := by
  obtain ⟨r₀, h₀, ha₀⟩ := runFullAnalysis_analyzedAt "s" "n" [] [⟨"a", "A"⟩] 0 (by decide)
  obtain ⟨r₁, h₁, ha₁⟩ := runFullAnalysis_analyzedAt "s" "n" [] [⟨"a", "A"⟩] 1 (by decide)
  rw [h₀, h₁]
  intro hc
  have hr : r₀ = r₁ := Option.some.inj hc
  rw [hr] at ha₀
  rw [ha₀] at ha₁
  cases ha₁

/-! ### C2: the empty study -/

theorem simMatrix_cardIds (sessions : List SortingSession) (cards : List Card) :
    (computeSimilarityMatrix sessions cards).cardIds = cards.map Card.id := rfl

theorem mget_simMatrix (sessions : List SortingSession) (cards : List Card)
    {i j : Nat} (hi : i < cards.length) (hj : j < cards.length) :
    mget (computeSimilarityMatrix sessions cards).matrix i j =
      if i = j then 1
      else if 0 < sessions.length then
        (coOcc sessions (cards.map Card.id) i j : ℚ) / (sessions.length : ℚ)
      else 0 := by
  show mget ((List.range cards.length).map (fun i => (List.range cards.length).map (fun j =>
    if i = j then 1
    else if 0 < sessions.length then
      (coOcc sessions (cards.map Card.id) i j : ℚ) / (sessions.length : ℚ)
    else 0))) i j = _
  unfold mget
  rw [getD_map_of_lt _ (List.range cards.length) 0 [] (by simpa using hi),
    getD_map_of_lt _ (List.range cards.length) 0 0 (by simpa using hj),
    getD_of_lt _ _ (show i < (List.range cards.length).length by simpa using hi),
    getD_of_lt _ _ (show j < (List.range cards.length).length by simpa using hj),
    List.get_eq_getElem, List.get_eq_getElem, List.getElem_range, List.getElem_range]

theorem mget_simMatrix_nil (cards : List Card) {i j : Nat}
    (hi : i < cards.length) (hj : j < cards.length) (hij : i ≠ j) :
    mget (computeSimilarityMatrix [] cards).matrix i j = 0 := by
  rw [mget_simMatrix [] cards hi hj, if_neg hij, if_neg (by simp)]

theorem cardSummary_nil (card : Card) :
    cardSummary [] card = ⟨card.id, card.label, [], 0, "Unplaced"⟩ := by
  unfold cardSummary cardPlacementCounts totalPlacements
  simp

theorem analyzeCardPlacements_nil (cards : List Card) :
    analyzeCardPlacements [] cards =
      cards.map (fun c => ⟨c.id, c.label, [], 0, "Unplaced"⟩) := by
  unfold analyzeCardPlacements
  exact List.map_congr_left (fun c _ => cardSummary_nil c)

theorem cells_similarity_nil (cards : List Card) :
    ∀ c ∈ getSimilarityCells (computeSimilarityMatrix [] cards), c.similarity = 0 := by
  intro c hc
  unfold getSimilarityCells at hc
  rw [List.mem_mergeSort] at hc
  obtain ⟨ij, hij, rfl⟩ := List.mem_map.1 hc
  have hb := mem_pairList.1 hij
  have hlen : (computeSimilarityMatrix [] cards).cardIds.length = cards.length := by
    rw [simMatrix_cardIds, List.length_map]
  rw [hlen] at hb
  show mget (computeSimilarityMatrix [] cards).matrix ij.1 ij.2 = 0
  exact mget_simMatrix_nil cards (lt_trans hb.1 hb.2) hb.2 (ne_of_lt hb.1)

theorem insights_empty_study (cards : List Card) :
    generateInsights (computeSimilarityMatrix [] cards)
      (analyzeCardPlacements [] cards) =
    (cards.take 2).map (fun card =>
      ({ type := "ambiguous_card"
         message := "\"" ++ card.label ++ "\" shows low placement agreement (" ++
           toString (jsRound ((0 : ℚ) * 100)) ++
           "%). Consider reviewing this item's clarity or scope."
         relatedCards := [card.id]
         confidence := 1 - (0 : ℚ) } : Insight)) := by
  rw [analyzeCardPlacements_nil]
  simp only [generateInsights]
  have hstrong : (getSimilarityCells (computeSimilarityMatrix [] cards)).filter
      (fun c => decide ((8 : ℚ)/10 ≤ c.similarity)) = [] := by
    refine List.filter_eq_nil_iff.2 ?_
    intro c hc
    rw [cells_similarity_nil cards c hc]
    simp only [decide_eq_true_eq]
    norm_num
  have hambig : (cards.map (fun c =>
      (⟨c.id, c.label, [], 0, "Unplaced"⟩ : CardPlacementSummary))).filter
      (fun c => decide (c.agreementScore < (4 : ℚ)/10)) =
      cards.map (fun c => (⟨c.id, c.label, [], 0, "Unplaced"⟩ : CardPlacementSummary)) := by
    refine List.filter_eq_self.2 ?_
    intro s hs
    obtain ⟨c, hcm, rfl⟩ := List.mem_map.1 hs
    simp only [decide_eq_true_eq]
    show (0 : ℚ) < 4/10
    norm_num
  have hcons : (cards.map (fun c =>
      (⟨c.id, c.label, [], 0, "Unplaced"⟩ : CardPlacementSummary))).filter
      (fun c => decide ((9 : ℚ)/10 ≤ c.agreementScore)) = [] := by
    refine List.filter_eq_nil_iff.2 ?_
    intro s hs
    obtain ⟨c, hcm, rfl⟩ := List.mem_map.1 hs
    simp only [decide_eq_true_eq]
    show ¬ (9 : ℚ)/10 ≤ 0
    norm_num
  rw [hstrong, hambig, hcons]
  simp only [List.head?_nil, List.length_nil]
  rw [if_neg (by omega), ← List.map_take, List.map_map]
  simp only [List.nil_append, List.append_nil]
  rfl

/-- `runFullAnalysis` written as an `Option.map` over the clustering result. -/
theorem runFullAnalysis_eq (sid sname : String) (sessions : List SortingSession)
    (cards : List Card) (now : Nat) :
    runFullAnalysis sid sname sessions cards now =
      (computeHierarchicalClustering (computeSimilarityMatrix
          (sessions.filter (fun s => decide (s.participant.completedAt ≠ none))) cards)
        now).map (fun ca =>
        { studyId := sid
          studyName := sname
          analyzedAt := now
          participantCount :=
            (sessions.filter (fun s => decide (s.participant.completedAt ≠ none))).length
          completionRate :=
            if 0 < sessions.length then
              ((sessions.filter (fun s =>
                decide (s.participant.completedAt ≠ none))).length : ℚ) /
                (sessions.length : ℚ)
            else 0
          averageDuration :=
            if 0 < ((sessions.filter (fun s =>
                decide (s.participant.completedAt ≠ none))).filterMap
                (fun s => s.participant.duration)).length then
              ((sessions.filter (fun s =>
                decide (s.participant.completedAt ≠ none))).filterMap
                (fun s => s.participant.duration)).sum /
                (((sessions.filter (fun s =>
                  decide (s.participant.completedAt ≠ none))).filterMap
                  (fun s => s.participant.duration)).length : ℚ)
            else 0
          similarityMatrix := computeSimilarityMatrix
            (sessions.filter (fun s => decide (s.participant.completedAt ≠ none))) cards
          clusterAnalysis := ca
          categoryAnalysis := analyzeCategoryUsage
            (sessions.filter (fun s => decide (s.participant.completedAt ≠ none)))
          cardSummaries := analyzeCardPlacements
            (sessions.filter (fun s => decide (s.participant.completedAt ≠ none))) cards
          insights := generateInsights
            (computeSimilarityMatrix
              (sessions.filter (fun s => decide (s.participant.completedAt ≠ none))) cards)
            (analyzeCardPlacements
              (sessions.filter (fun s => decide (s.participant.completedAt ≠ none)))
              cards) }) := by
  simp only [runFullAnalysis]
  cases computeHierarchicalClustering (computeSimilarityMatrix
    (sessions.filter (fun s => decide (s.participant.completedAt ≠ none))) cards) now
    <;> rfl

theorem map_const_of_length_two (l : List α) (b : β) (hl : l.length = 2) :
    l.map (fun _ => b) = [b, b] := by
  obtain ⟨a1, a2, rfl⟩ := List.length_eq_two.1 hl
  rfl

/-- C2 (amended): for an empty study over 5 cards, `runFullAnalysis` returns
`participantCount 0`, `completionRate 0`, an all-zero off-diagonal similarity
matrix and a dendrogram with 5 leaves and 4 internal nodes — but the insights
list is NOT empty: the ambiguous-card rule fires for the first two cards
(unplaced cards have agreement score 0 < 0.4), yielding exactly two
`ambiguous_card` insights. -/
theorem empty_study_analysis (sid sname : String) (cards : List Card) (now : Nat)
    (h5 : cards.length = 5) :
    ∃ r, runFullAnalysis sid sname [] cards now = some r ∧
      r.participantCount = 0 ∧
      r.completionRate = 0 ∧
      (∀ i j, i < 5 → j < 5 → i ≠ j → mget r.similarityMatrix.matrix i j = 0) ∧
      r.clusterAnalysis.root.leafIds.Perm (cards.map Card.id) ∧
      r.clusterAnalysis.root.leafIds.length = 5 ∧
      r.clusterAnalysis.root.internalCount = 4 ∧
      r.insights.map Insight.type = ["ambiguous_card", "ambiguous_card"] ∧
      r.insights.map Insight.relatedCards = (cards.take 2).map (fun c => [c.id]) := by
  have hlen : (computeSimilarityMatrix [] cards).cardIds.length = 5 := by
    rw [simMatrix_cardIds, List.length_map, h5]
  obtain ⟨c, hcl, hsome⟩ := computeHC_some (computeSimilarityMatrix [] cards) now
    (by omega)
  obtain ⟨hperm, hleaflen, hint⟩ := root_shape (computeSimilarityMatrix [] cards) now
    (by omega) c hcl
  rw [runFullAnalysis_eq]
  simp only [List.filter_nil]
  rw [hsome]
  simp only [Option.map_some']
  refine ⟨_, rfl, rfl, by simp, ?_, ?_, ?_, ?_, ?_, ?_⟩
  · intro i j hi hj hij
    exact mget_simMatrix_nil cards (by omega) (by omega) hij
  · show (buildDendrogramTree _ _ c).leafIds.Perm (cards.map Card.id)
    rw [← simMatrix_cardIds ([] : List SortingSession) cards]
    exact hperm
  · show (buildDendrogramTree _ _ c).leafIds.length = 5
    rw [hleaflen, hlen]
  · show (buildDendrogramTree _ _ c).internalCount = 4
    rw [hint, hlen]
  · show (generateInsights (computeSimilarityMatrix [] cards)
      (analyzeCardPlacements [] cards)).map Insight.type = _
    rw [insights_empty_study, List.map_map]
    have htk : (cards.take 2).length = 2 := by
      rw [List.length_take, h5]
      rfl
    exact map_const_of_length_two (cards.take 2) "ambiguous_card" htk
  · show (generateInsights (computeSimilarityMatrix [] cards)
      (analyzeCardPlacements [] cards)).map Insight.relatedCards = _
    rw [insights_empty_study, List.map_map]
    rfl

/-- C2 counterexample: on a concrete empty study with 5 cards the insights
list is not empty (the claim says it is): two `ambiguous_card` insights are
generated for the unplaced cards. -/
theorem empty_study_insights_not_empty :
    ¬ ((runFullAnalysis "s" "n" []
        [⟨"a", "A"⟩, ⟨"b", "B"⟩, ⟨"c", "C"⟩, ⟨"d", "D"⟩, ⟨"e", "E"⟩] 0).map
      AnalysisResults.insights = some []) := by
  intro hc
  rw [runFullAnalysis_eq] at hc
  simp only [List.filter_nil] at hc
  obtain ⟨c, hcl, hsome⟩ := computeHC_some (computeSimilarityMatrix []
    [⟨"a", "A"⟩, ⟨"b", "B"⟩, ⟨"c", "C"⟩, ⟨"d", "D"⟩, ⟨"e", "E"⟩]) 0 (by decide)
  rw [hsome] at hc
  simp only [Option.map_some', Option.some.injEq] at hc
  have h2 : generateInsights (computeSimilarityMatrix []
      [⟨"a", "A"⟩, ⟨"b", "B"⟩, ⟨"c", "C"⟩, ⟨"d", "D"⟩, ⟨"e", "E"⟩])
      (analyzeCardPlacements []
        [⟨"a", "A"⟩, ⟨"b", "B"⟩, ⟨"c", "C"⟩, ⟨"d", "D"⟩, ⟨"e", "E"⟩]) = [] := hc
  rw [insights_empty_study] at h2
  simp at h2

/-- C2 witness: the amended empty-study statement at a concrete 5-card list. -/
theorem empty_study_analysis_witness :
    ([(⟨"a", "A"⟩ : Card), ⟨"b", "B"⟩, ⟨"c", "C"⟩, ⟨"d", "D"⟩, ⟨"e", "E"⟩].length = 5) ∧
    (∃ r, runFullAnalysis "sid" "sn" []
        [(⟨"a", "A"⟩ : Card), ⟨"b", "B"⟩, ⟨"c", "C"⟩, ⟨"d", "D"⟩, ⟨"e", "E"⟩] 3 = some r ∧
      r.participantCount = 0 ∧
      r.completionRate = 0 ∧
      (∀ i j, i < 5 → j < 5 → i ≠ j → mget r.similarityMatrix.matrix i j = 0) ∧
      r.clusterAnalysis.root.leafIds.Perm
        ([(⟨"a", "A"⟩ : Card), ⟨"b", "B"⟩, ⟨"c", "C"⟩, ⟨"d", "D"⟩, ⟨"e", "E"⟩].map Card.id) ∧
      r.clusterAnalysis.root.leafIds.length = 5 ∧
      r.clusterAnalysis.root.internalCount = 4 ∧
      r.insights.map Insight.type = ["ambiguous_card", "ambiguous_card"] ∧
      r.insights.map Insight.relatedCards =
        ([(⟨"a", "A"⟩ : Card), ⟨"b", "B"⟩, ⟨"c", "C"⟩, ⟨"d", "D"⟩, ⟨"e", "E"⟩].take 2).map
          (fun c => [c.id])) :=
  ⟨by decide,
    empty_study_analysis "sid" "sn"
      [(⟨"a", "A"⟩ : Card), ⟨"b", "B"⟩, ⟨"c", "C"⟩, ⟨"d", "D"⟩, ⟨"e", "E"⟩] 3 (by decide)⟩

/-! ### C8: percentages sum to 100 -/

theorem upsert_count_sum (k : String) :
    ∀ m : List (String × Nat),
      ((upsert k (fun c => c.getD 0 + 1) m).map Prod.snd).sum =
      ((m.map Prod.snd).sum) + 1 := by
  intro m
  induction m with
  | nil => rfl
  | cons e t ih =>
    obtain ⟨a, b⟩ := e
    show ((if a = k then (a, b + 1) :: t else (a, b) :: upsert k _ t).map Prod.snd).sum = _
    by_cases hak : a = k
    · rw [if_pos hak]
      simp only [List.map_cons, List.sum_cons]
      omega
    · rw [if_neg hak]
      simp only [List.map_cons, List.sum_cons]
      rw [ih]
      omega

theorem counts_sum_eq_totalPlacements (sessions : List SortingSession) (cid : String) :
    ((cardPlacementCounts sessions cid).map Prod.snd).sum =
      totalPlacements sessions cid := by
  unfold cardPlacementCounts totalPlacements
  have key : ∀ (ss : List SortingSession) (m : List (String × Nat)),
      ((ss.foldl (fun m s =>
        match s.placements.find? (fun p => decide (p.cardId = cid)) with
        | none => m
        | some p => upsert (normalizeCategory p.categoryName) (fun c => c.getD 0 + 1) m)
        m).map Prod.snd).sum =
      (m.map Prod.snd).sum +
        ss.countP (fun s => s.placements.any (fun p => decide (p.cardId = cid))) := by
    intro ss
    induction ss with
    | nil => intro m; simp
    | cons s t ih =>
      intro m
      rw [List.foldl_cons, List.countP_cons, ih]
      cases hf : s.placements.find? (fun p => decide (p.cardId = cid)) with
      | none =>
        have hany : s.placements.any (fun p => decide (p.cardId = cid)) = false := by
          cases hA : s.placements.any (fun p => decide (p.cardId = cid)) with
          | false => rfl
          | true =>
            obtain ⟨x, hx, hpx⟩ := List.any_eq_true.1 hA
            exact absurd hpx ((List.find?_eq_none.1 hf) x hx)
        rw [hany]
        simp
      | some p =>
        have hany : s.placements.any (fun p => decide (p.cardId = cid)) = true := by
          refine List.any_eq_true.2 ?_
          have := List.find?_some hf
          have hmem := List.mem_of_find?_eq_some hf
          exact ⟨p, hmem, this⟩
        rw [hany, upsert_count_sum]
        simp only [if_pos]
        omega
  have h := key sessions []
  simpa using h

theorem sum_map_scale (l : List (String × Nat)) (t : ℚ) :
    (l.map (fun e => (e.2 : ℚ) / t * 100)).sum =
      ((l.map Prod.snd).sum : ℚ) / t * 100 := by
  induction l with
  | nil => simp
  | cons e tl ih =>
    simp only [List.map_cons, List.sum_cons, ih]
    push_cast
    ring

/-- C8: for a card with at least one placement across the sessions, the
`percentage` fields of its summary's `placements` entries sum to exactly 100
(exactly over ℚ; in particular within any floating tolerance).  The summary of
a listed card is the corresponding element of `analyzeCardPlacements`. -/
theorem percentage_sum (sessions : List SortingSession) (card : Card)
    (h : ∃ s ∈ sessions, s.placements.any (fun p => decide (p.cardId = card.id)) = true) :
    ((cardSummary sessions card).placements.map PlacementEntry.percentage).sum = 100 ∧
    ∀ cards : List Card, card ∈ cards →
      cardSummary sessions card ∈ analyzeCardPlacements sessions cards := by
  have htot : 0 < totalPlacements sessions card.id := by
    unfold totalPlacements
    exact List.countP_pos.2 h
  constructor
  · show ((((cardPlacementCounts sessions card.id).map (fun e =>
      ({ categoryName := e.1
         count := e.2
         percentage := if 0 < totalPlacements sessions card.id then
           (e.2 : ℚ) / (totalPlacements sessions card.id : ℚ) * 100 else 0 }
        : PlacementEntry))).mergeSort
        (fun a b => decide (b.count ≤ a.count))).map PlacementEntry.percentage).sum = 100
    have hperm := (List.mergeSort_perm ((cardPlacementCounts sessions card.id).map
      (fun e =>
        ({ categoryName := e.1
           count := e.2
           percentage := if 0 < totalPlacements sessions card.id then
             (e.2 : ℚ) / (totalPlacements sessions card.id : ℚ) * 100 else 0 }
          : PlacementEntry)))
      (fun a b => decide (b.count ≤ a.count))).map PlacementEntry.percentage
    rw [hperm.sum_eq, List.map_map]
    have hcong : ((cardPlacementCounts sessions card.id).map
        (PlacementEntry.percentage ∘ fun e =>
          ({ categoryName := e.1
             count := e.2
             percentage := if 0 < totalPlacements sessions card.id then
               (e.2 : ℚ) / (totalPlacements sessions card.id : ℚ) * 100 else 0 }
            : PlacementEntry))) =
        (cardPlacementCounts sessions card.id).map (fun e =>
          (e.2 : ℚ) / (totalPlacements sessions card.id : ℚ) * 100) := by
      refine List.map_congr_left ?_
      intro e he
      show (if 0 < totalPlacements sessions card.id then
        (e.2 : ℚ) / (totalPlacements sessions card.id : ℚ) * 100 else 0) = _
      rw [if_pos htot]
    rw [hcong, sum_map_scale, counts_sum_eq_totalPlacements]
    have hne : ((totalPlacements sessions card.id : ℚ)) ≠ 0 := by
      exact_mod_cast Nat.pos_iff_ne_zero.1 htot
    rw [div_self hne]
    norm_num
  · intro cards hmem
    exact List.mem_map.2 ⟨card, hmem, rfl⟩

/-- C8 witness: one session placing one card. -/
theorem percentage_sum_witness :
    (∃ s ∈ [(⟨⟨some 1, none⟩, [⟨"a", "A"⟩], [⟨"c1", "Fruit"⟩],
        [⟨"a", "c1", "Fruit"⟩]⟩ : SortingSession)],
      s.placements.any (fun p => decide (p.cardId = (⟨"a", "A"⟩ : Card).id)) = true) ∧
    ((cardSummary [(⟨⟨some 1, none⟩, [⟨"a", "A"⟩], [⟨"c1", "Fruit"⟩],
        [⟨"a", "c1", "Fruit"⟩]⟩ : SortingSession)] (⟨"a", "A"⟩ : Card)).placements.map
      PlacementEntry.percentage).sum = 100 ∧
    ∀ cards : List Card, (⟨"a", "A"⟩ : Card) ∈ cards →
      cardSummary [(⟨⟨some 1, none⟩, [⟨"a", "A"⟩], [⟨"c1", "Fruit"⟩],
        [⟨"a", "c1", "Fruit"⟩]⟩ : SortingSession)] (⟨"a", "A"⟩ : Card) ∈
        analyzeCardPlacements [(⟨⟨some 1, none⟩, [⟨"a", "A"⟩], [⟨"c1", "Fruit"⟩],
          [⟨"a", "c1", "Fruit"⟩]⟩ : SortingSession)] cards :=
  ⟨by decide,
    (percentage_sum [(⟨⟨some 1, none⟩, [⟨"a", "A"⟩], [⟨"c1", "Fruit"⟩],
        [⟨"a", "c1", "Fruit"⟩]⟩ : SortingSession)] (⟨"a", "A"⟩ : Card) (by decide)).1,
    (percentage_sum [(⟨⟨some 1, none⟩, [⟨"a", "A"⟩], [⟨"c1", "Fruit"⟩],
        [⟨"a", "c1", "Fruit"⟩]⟩ : SortingSession)] (⟨"a", "A"⟩ : Card) (by decide)).2⟩

/-! ### Toolkit for the per-session category map (C5, C9) -/

theorem mem_addSet [DecidableEq α] {s : List α} {x y : α} :
    y ∈ addSet s x ↔ y ∈ s ∨ y = x := by
  unfold addSet
  split_ifs with hx
  · constructor
    · exact Or.inl
    · rintro (h | rfl)
      · exact h
      · exact hx
  · simp

theorem addSet_nodup [DecidableEq α] {s : List α} (h : s.Nodup) (x : α) :
    (addSet s x).Nodup := by
  unfold addSet
  split_ifs with hx
  · exact h
  · rw [List.nodup_append]
    refine ⟨h, List.nodup_singleton x, ?_⟩
    intro a ha hb
    rw [List.mem_singleton] at hb
    subst hb
    exact hx ha

/-- Unfolding membership in an updated association list. -/
theorem mem_upsert [DecidableEq α] {k : α} {f : Option β → β} :
    ∀ {m : List (α × β)} {e : α × β}, e ∈ upsert k f m →
      e ∈ m ∨ (∃ b, (k, b) ∈ m ∧ e = (k, f (some b))) ∨ e = (k, f none) := by
  intro m
  induction m with
  | nil =>
    intro e he
    simp only [upsert, List.mem_singleton] at he
    exact Or.inr (Or.inr he)
  | cons hd t ih =>
    obtain ⟨a, b⟩ := hd
    intro e he
    by_cases hak : a = k
    · subst hak
      rw [show upsert a f ((a, b) :: t) = (a, f (some b)) :: t from by
        simp [upsert]] at he
      rcases List.mem_cons.1 he with rfl | he
      · exact Or.inr (Or.inl ⟨b, List.mem_cons_self _ _, rfl⟩)
      · exact Or.inl (List.mem_cons_of_mem _ he)
    · rw [show upsert k f ((a, b) :: t) = (a, b) :: upsert k f t from by
        simp [upsert, hak]] at he
      rcases List.mem_cons.1 he with rfl | he
      · exact Or.inl (List.mem_cons_self _ _)
      · rcases ih he with h | ⟨b2, hb2, rfl⟩ | h
        · exact Or.inl (List.mem_cons_of_mem _ h)
        · exact Or.inr (Or.inl ⟨b2, List.mem_cons_of_mem _ hb2, rfl⟩)
        · exact Or.inr (Or.inr h)

theorem mem_keys_upsert [DecidableEq α] {k : α} {f : Option β → β} :
    ∀ {m : List (α × β)} {y : α}, y ∈ (upsert k f m).map Prod.fst →
      y ∈ m.map Prod.fst ∨ y = k := by
  intro m y hy
  obtain ⟨e, he, rfl⟩ := List.mem_map.1 hy
  rcases mem_upsert he with h | ⟨b, hb, rfl⟩ | rfl
  · exact Or.inl (List.mem_map.2 ⟨e, h, rfl⟩)
  · exact Or.inr rfl
  · exact Or.inr rfl

theorem upsert_keys_nodup [DecidableEq α] {k : α} {f : Option β → β} :
    ∀ {m : List (α × β)}, (m.map Prod.fst).Nodup →
      ((upsert k f m).map Prod.fst).Nodup := by
  intro m
  induction m with
  | nil =>
    intro _
    simp [upsert]
  | cons hd t ih =>
    obtain ⟨a, b⟩ := hd
    intro hnd
    rw [List.map_cons] at hnd
    have hat : a ∉ t.map Prod.fst := (List.nodup_cons.1 hnd).1
    have hndt : (t.map Prod.fst).Nodup := (List.nodup_cons.1 hnd).2
    by_cases hak : a = k
    · subst hak
      rw [show upsert a f ((a, b) :: t) = (a, f (some b)) :: t from by simp [upsert]]
      rw [List.map_cons]
      exact List.nodup_cons.2 ⟨hat, hndt⟩
    · rw [show upsert k f ((a, b) :: t) = (a, b) :: upsert k f t from by
        simp [upsert, hak]]
      rw [List.map_cons]
      refine List.nodup_cons.2 ⟨?_, ih hndt⟩
      intro hc
      rcases mem_keys_upsert hc with h | rfl
      · exact hat h
      · exact hak rfl

theorem upsert_of_not_mem_keys [DecidableEq α] {k : α} {f : Option β → β} :
    ∀ {m : List (α × β)}, k ∉ m.map Prod.fst →
      upsert k f m = m ++ [(k, f none)] := by
  intro m
  induction m with
  | nil => intro _; rfl
  | cons hd t ih =>
    obtain ⟨a, b⟩ := hd
    intro hk
    rw [List.map_cons] at hk
    have hak : a ≠ k := fun hc => hk (by rw [hc]; exact List.mem_cons_self _ _)
    rw [show upsert k f ((a, b) :: t) = (a, b) :: upsert k f t from by
      simp [upsert, hak], ih (fun hc => hk (List.mem_cons_of_mem _ hc))]
    rfl

theorem upsert_of_mem_keys [DecidableEq α] {k : α} {f : Option β → β} :
    ∀ {m : List (α × β)}, (m.map Prod.fst).Nodup → k ∈ m.map Prod.fst →
      upsert k f m = m.map (fun e => if e.1 = k then (e.1, f (some e.2)) else e) := by
  intro m
  induction m with
  | nil => intro _ hk; cases hk
  | cons hd t ih =>
    obtain ⟨a, b⟩ := hd
    intro hnd hk
    rw [List.map_cons] at hnd
    have hat : a ∉ t.map Prod.fst := (List.nodup_cons.1 hnd).1
    have hndt := (List.nodup_cons.1 hnd).2
    by_cases hak : a = k
    · subst hak
      rw [show upsert a f ((a, b) :: t) = (a, f (some b)) :: t from by simp [upsert]]
      rw [List.map_cons]
      have htid : t.map (fun e => if e.1 = a then (e.1, f (some e.2)) else e) = t := by
        conv_rhs => rw [← List.map_id t]
        refine List.map_congr_left ?_
        intro e he
        have hne : e.1 ≠ a := fun hc => hat (hc ▸ List.mem_map.2 ⟨e, he, rfl⟩)
        rw [if_neg hne]
        rfl
      rw [htid]
      simp
    · have hkt : k ∈ t.map Prod.fst := by
        rw [List.map_cons] at hk
        rcases List.mem_cons.1 hk with h | h
        · exact absurd h.symm hak
        · exact h
      rw [show upsert k f ((a, b) :: t) = (a, b) :: upsert k f t from by
        simp [upsert, hak], ih hndt hkt, List.map_cons, if_neg hak]

theorem upsert_perm_congr [DecidableEq α] {k : α} {f : Option β → β}
    {m₁ m₂ : List (α × β)} (hnd : (m₁.map Prod.fst).Nodup) (hp : m₁.Perm m₂) :
    (upsert k f m₁).Perm (upsert k f m₂) := by
  have hnd₂ : (m₂.map Prod.fst).Nodup := (hp.map Prod.fst).nodup_iff.1 hnd
  by_cases hk : k ∈ m₁.map Prod.fst
  · have hk₂ : k ∈ m₂.map Prod.fst := (hp.map Prod.fst).mem_iff.1 hk
    rw [upsert_of_mem_keys hnd hk, upsert_of_mem_keys hnd₂ hk₂]
    exact hp.map _
  · have hk₂ : k ∉ m₂.map Prod.fst := fun hc => hk ((hp.map Prod.fst).mem_iff.2 hc)
    rw [upsert_of_not_mem_keys hk, upsert_of_not_mem_keys hk₂]
    exact hp.append_right _

theorem categoryCards_eq_foldl (placements : List CardPlacement) :
    categoryCards placements = placements.foldl catStep [] := rfl

theorem catStep_values {m : List (String × List String)} {p : CardPlacement}
    {e : String × List String} {y : String} (he : e ∈ catStep m p) (hy : y ∈ e.2) :
    (∃ e' ∈ m, y ∈ e'.2) ∨ y = p.cardId := by
  rcases mem_upsert he with h | ⟨b, hb, rfl⟩ | rfl
  · exact Or.inl ⟨e, h, hy⟩
  · rcases mem_addSet.1 (by simpa using hy) with h | h
    · exact Or.inl ⟨(p.categoryId, b), hb, h⟩
    · exact Or.inr h
  · rcases mem_addSet.1 (by simpa using hy) with h | h
    · simp at h
    · exact Or.inr h

theorem upsert_addSet_props (c x : String) :
    ∀ (m : List (String × List String)),
    (∀ e ∈ m, e.2.Nodup) →
    m.Pairwise (fun e₁ e₂ => ∀ y ∈ e₁.2, y ∉ e₂.2) →
    (∀ e ∈ m, x ∉ e.2) →
    (∀ e ∈ upsert c (fun o => addSet (o.getD []) x) m, e.2.Nodup) ∧
    (upsert c (fun o => addSet (o.getD []) x) m).Pairwise
      (fun e₁ e₂ => ∀ y ∈ e₁.2, y ∉ e₂.2) := by
  intro m
  induction m with
  | nil =>
    intro _ _ _
    constructor
    · intro e he
      rw [show upsert c (fun o => addSet (o.getD []) x) [] = [(c, addSet [] x)]
        from rfl, List.mem_singleton] at he
      subst he
      exact addSet_nodup List.nodup_nil x
    · exact List.pairwise_singleton _ _
  | cons hd t ih =>
    obtain ⟨a, b⟩ := hd
    intro hnd hdisj hfresh
    have hndb : b.Nodup := by
      have := hnd (a, b) (List.mem_cons_self _ _)
      simpa using this
    have hndt : ∀ e ∈ t, e.2.Nodup := fun e he => hnd e (List.mem_cons_of_mem _ he)
    have hheadR := (List.pairwise_cons.1 hdisj).1
    have hdisjt := (List.pairwise_cons.1 hdisj).2
    have hfresht : ∀ e ∈ t, x ∉ e.2 := fun e he => hfresh e (List.mem_cons_of_mem _ he)
    have hfreshb : x ∉ b := by
      have := hfresh (a, b) (List.mem_cons_self _ _)
      simpa using this
    by_cases hac : a = c
    · subst hac
      rw [show upsert a (fun o => addSet (o.getD []) x) ((a, b) :: t) =
        (a, addSet b x) :: t from by simp [upsert]]
      constructor
      · intro e he
        rcases List.mem_cons.1 he with rfl | he
        · exact addSet_nodup hndb x
        · exact hndt e he
      · refine List.pairwise_cons.2 ⟨?_, hdisjt⟩
        intro e₂ he₂ y hy
        rcases mem_addSet.1 (by simpa using hy) with h | rfl
        · exact hheadR e₂ he₂ y (by simpa using h)
        · exact hfresht e₂ he₂
    · rw [show upsert c (fun o => addSet (o.getD []) x) ((a, b) :: t) =
        (a, b) :: upsert c (fun o => addSet (o.getD []) x) t from by
          simp [upsert, hac]]
      obtain ⟨ihnd, ihpw⟩ := ih hndt hdisjt hfresht
      constructor
      · intro e he
        rcases List.mem_cons.1 he with rfl | he
        · exact hndb
        · exact ihnd e he
      · refine List.pairwise_cons.2 ⟨?_, ihpw⟩
        intro e₂ he₂ y hy hy₂
        rcases catStep_values (p := ⟨x, c, ""⟩) he₂ hy₂ with ⟨e', he', hye'⟩ | rfl
        · exact hheadR e' he' y (by simpa using hy) hye'
        · exact hfreshb (by simpa using hy)

theorem catFold_values_from :
    ∀ (pls : List CardPlacement) (m : List (String × List String))
      (e : String × List String), e ∈ pls.foldl catStep m →
      ∀ y ∈ e.2, (∃ e' ∈ m, y ∈ e'.2) ∨ ∃ p ∈ pls, p.cardId = y := by
  intro pls
  induction pls with
  | nil =>
    intro m e he y hy
    exact Or.inl ⟨e, he, hy⟩
  | cons p rest ih =>
    intro m e he y hy
    rw [List.foldl_cons] at he
    rcases ih (catStep m p) e he y hy with ⟨e', he', hye'⟩ | ⟨p', hp', hpy⟩
    · rcases catStep_values he' hye' with h | rfl
      · exact Or.inl h
      · exact Or.inr ⟨p, List.mem_cons_self _ _, rfl⟩
    · exact Or.inr ⟨p', List.mem_cons_of_mem _ hp', hpy⟩

theorem catFold_good :
    ∀ (pls : List CardPlacement) (m : List (String × List String)),
      (pls.map CardPlacement.cardId).Nodup →
      (∀ p ∈ pls, ∀ e ∈ m, p.cardId ∉ e.2) →
      (∀ e ∈ m, e.2.Nodup) →
      m.Pairwise (fun e₁ e₂ => ∀ y ∈ e₁.2, y ∉ e₂.2) →
      (∀ e ∈ pls.foldl catStep m, e.2.Nodup) ∧
      (pls.foldl catStep m).Pairwise (fun e₁ e₂ => ∀ y ∈ e₁.2, y ∉ e₂.2) := by
  intro pls
  induction pls with
  | nil =>
    intro m _ _ hnd hdisj
    exact ⟨hnd, hdisj⟩
  | cons p rest ih =>
    intro m hpln hfresh hnd hdisj
    rw [List.map_cons, List.nodup_cons] at hpln
    obtain ⟨hme, hpw⟩ := upsert_addSet_props p.categoryId p.cardId m hnd hdisj
      (fun e he => hfresh p (List.mem_cons_self _ _) e he)
    rw [List.foldl_cons]
    refine ih (catStep m p) hpln.2 ?_ hme hpw
    intro p' hp' e he hce
    rcases catStep_values he hce with ⟨e', he', hye'⟩ | hcard
    · exact hfresh p' (List.mem_cons_of_mem _ hp') e' he' hye'
    · exact hpln.1 (hcard ▸ List.mem_map.2 ⟨p', hp', rfl⟩)

theorem sessionEvents_def (cardIds : List String) (s : SortingSession) :
    sessionEvents cardIds s = (categoryCards s.placements).flatMap
      (fun e => (upairs e.2).filterMap (pairFn cardIds)) := rfl

theorem mem_of_mem_upairs {α : Type} :
    ∀ {l : List α} {x y : α}, (x, y) ∈ upairs l → x ∈ l ∧ y ∈ l := by
  intro l
  induction l with
  | nil => intro x y h; cases h
  | cons a t ih =>
    intro x y h
    simp only [upairs, List.mem_append] at h
    rcases h with h | h
    · obtain ⟨y', hy', he⟩ := List.mem_map.1 h
      injection he with h1 h2
      subst h1; subst h2
      exact ⟨List.mem_cons_self _ _, List.mem_cons_of_mem _ hy'⟩
    · obtain ⟨hx, hy⟩ := ih h
      exact ⟨List.mem_cons_of_mem _ hx, List.mem_cons_of_mem _ hy⟩

theorem countP_single_eq_le_one {α : Type} [DecidableEq α] :
    ∀ {l : List α}, l.Nodup → ∀ c : α, l.countP (fun z => z = c) ≤ 1 := by
  intro l
  induction l with
  | nil => intro _ c; simp
  | cons a t ih =>
    intro h c
    rw [List.nodup_cons] at h
    rw [List.countP_cons]
    by_cases hac : a = c
    · subst hac
      have hz : t.countP (fun z => z = a) = 0 := by
        rw [List.countP_eq_zero]
        intro z hz hza
        exact h.1 (of_decide_eq_true hza ▸ hz)
      simp [hz]
    · have := ih h.2 c
      rw [decide_eq_false hac, if_neg (by simp)]
      omega

theorem upairs_pair_count {α : Type} [DecidableEq α] :
    ∀ {l : List α}, l.Nodup → ∀ x y : α,
      (upairs l).countP (fun ab => ab = (x, y) ∨ ab = (y, x)) ≤ 1 := by
  intro l
  induction l with
  | nil => intro _ x y; simp [upairs]
  | cons a t ih =>
    intro h x y
    rw [List.nodup_cons] at h
    simp only [upairs]
    rw [List.countP_append, List.countP_map]
    by_cases hax : a = x
    · subst hax
      by_cases hay : a = y
      · subst hay
        have hm : t.countP ((fun ab => decide (ab = (a, a) ∨ ab = (a, a))) ∘
            fun y' => (a, y')) = 0 := by
          rw [List.countP_eq_zero]
          intro z hz hP
          rcases of_decide_eq_true hP with h' | h' <;>
            · injection h' with h1 h2; exact h.1 (h2 ▸ hz)
        have ht := ih h.2 a a
        omega
      · have hm : t.countP ((fun ab => decide (ab = (a, y) ∨ ab = (y, a))) ∘
            fun y' => (a, y')) ≤ 1 := by
          refine le_trans (List.countP_mono_left ?_) (countP_single_eq_le_one h.2 y)
          intro z hz hP
          rcases of_decide_eq_true hP with h' | h'
          · injection h' with h1 h2; exact decide_eq_true h2
          · injection h' with h1 h2; exact absurd h1 hay
        have hz : (upairs t).countP (fun ab => ab = (a, y) ∨ ab = (y, a)) = 0 := by
          rw [List.countP_eq_zero]
          intro ab hab hP
          obtain ⟨u, w⟩ := ab
          obtain ⟨hu, hw⟩ := mem_of_mem_upairs hab
          rcases of_decide_eq_true hP with h' | h'
          · injection h' with h1 h2; exact h.1 (h1 ▸ hu)
          · injection h' with h1 h2; exact h.1 (h2 ▸ hw)
        omega
    · by_cases hay : a = y
      · subst hay
        have hm : t.countP ((fun ab => decide (ab = (x, a) ∨ ab = (a, x))) ∘
            fun y' => (a, y')) ≤ 1 := by
          refine le_trans (List.countP_mono_left ?_) (countP_single_eq_le_one h.2 x)
          intro z hz hP
          rcases of_decide_eq_true hP with h' | h'
          · injection h' with h1 h2; exact absurd h1 hax
          · injection h' with h1 h2; exact decide_eq_true h2
        have hz : (upairs t).countP (fun ab => ab = (x, a) ∨ ab = (a, x)) = 0 := by
          rw [List.countP_eq_zero]
          intro ab hab hP
          obtain ⟨u, w⟩ := ab
          obtain ⟨hu, hw⟩ := mem_of_mem_upairs hab
          rcases of_decide_eq_true hP with h' | h'
          · injection h' with h1 h2; exact h.1 (h2 ▸ hw)
          · injection h' with h1 h2; exact h.1 (h1 ▸ hu)
        omega
      · have hm : t.countP ((fun ab => decide (ab = (x, y) ∨ ab = (y, x))) ∘
            fun y' => (a, y')) = 0 := by
          rw [List.countP_eq_zero]
          intro z hz hP
          rcases of_decide_eq_true hP with h' | h'
          · injection h' with h1 h2; exact hax h1
          · injection h' with h1 h2; exact hay h1
        have ht := ih h.2 x y
        omega

theorem countP_filterMap {α β : Type} (f : α → Option β) (P : β → Bool) :
    ∀ (l : List α), (l.filterMap f).countP P =
      l.countP (fun a => (f a).elim false P) := by
  intro l
  induction l with
  | nil => rfl
  | cons a t ih =>
    cases hfa : f a with
    | none => simp [List.filterMap_cons, hfa, List.countP_cons, ih]
    | some b => simp [List.filterMap_cons, hfa, List.countP_cons, ih]

theorem pairFn_shape {cardIds : List String} {ab : String × String} {ev : Nat × Nat}
    (h : pairFn cardIds ab = some ev) {p q : Nat}
    (hev : ev = (p, q) ∨ ev = (q, p)) :
    ab = (cardIds.getD p "", cardIds.getD q "") ∨
      ab = (cardIds.getD q "", cardIds.getD p "") := by
  unfold pairFn at h
  split_ifs at h with hmem
  · obtain ⟨h1, h2⟩ := hmem
    injection h with h
    have e1 : cardIds.getD (cardIds.indexOf ab.1) "" = ab.1 := by
      rw [getD_of_lt _ _ (List.indexOf_lt_length.2 h1)]
      exact List.getElem_indexOf _
    have e2 : cardIds.getD (cardIds.indexOf ab.2) "" = ab.2 := by
      rw [getD_of_lt _ _ (List.indexOf_lt_length.2 h2)]
      exact List.getElem_indexOf _
    rcases hev with rfl | rfl
    · left
      injection h with hp hq
      rw [← hp, ← hq, e1, e2]
    · right
      injection h with hp hq
      rw [← hp, ← hq, e1, e2]

theorem entry_count_le_one (cardIds : List String) {v : List String}
    (hv : v.Nodup) (p q : Nat) :
    ((upairs v).filterMap (pairFn cardIds)).countP
      (fun ev => ev = (p, q) ∨ ev = (q, p)) ≤ 1 := by
  rw [countP_filterMap]
  refine le_trans (List.countP_mono_left ?_)
    (upairs_pair_count hv (cardIds.getD p "") (cardIds.getD q ""))
  intro ab _ hP
  cases hfa : pairFn cardIds ab with
  | none => rw [hfa] at hP; cases hP
  | some ev =>
    rw [hfa] at hP
    exact decide_eq_true (pairFn_shape hfa (of_decide_eq_true hP))

theorem entry_count_pos (cardIds : List String) {v : List String} {p q : Nat}
    (h : 0 < ((upairs v).filterMap (pairFn cardIds)).countP
      (fun ev => ev = (p, q) ∨ ev = (q, p))) :
    cardIds.getD p "" ∈ v := by
  obtain ⟨ev, hev, hP⟩ := List.countP_pos_iff.1 h
  obtain ⟨ab, hab, hfa⟩ := List.mem_filterMap.1 hev
  have hsh := pairFn_shape hfa (of_decide_eq_true hP)
  obtain ⟨u, w⟩ := ab
  obtain ⟨hu, hw⟩ := mem_of_mem_upairs hab
  rcases hsh with h' | h'
  · injection h' with h1 h2
    exact h1 ▸ hu
  · injection h' with h1 h2
    exact h2 ▸ hw

theorem flat_count_le_one (cardIds : List String) (p q : Nat) :
    ∀ (es : List (String × List String)), (∀ e ∈ es, e.2.Nodup) →
      es.Pairwise (fun e₁ e₂ => ∀ y ∈ e₁.2, y ∉ e₂.2) →
      (es.flatMap (fun e => (upairs e.2).filterMap (pairFn cardIds))).countP
        (fun ev => ev = (p, q) ∨ ev = (q, p)) ≤ 1 := by
  intro es
  induction es with
  | nil => intro _ _; simp
  | cons e t ih =>
    intro hnd hpw
    rw [List.flatMap_cons, List.countP_append]
    by_cases hpos : 0 < ((upairs e.2).filterMap (pairFn cardIds)).countP
        (fun ev => ev = (p, q) ∨ ev = (q, p))
    · have hsp := entry_count_pos cardIds hpos
      have hzero : (t.flatMap
          (fun e => (upairs e.2).filterMap (pairFn cardIds))).countP
          (fun ev => ev = (p, q) ∨ ev = (q, p)) = 0 := by
        rw [List.countP_eq_zero]
        intro ev hev hP
        obtain ⟨e', he', hev'⟩ := List.mem_flatMap.1 hev
        have hpos' : 0 < ((upairs e'.2).filterMap (pairFn cardIds)).countP
            (fun ev => ev = (p, q) ∨ ev = (q, p)) :=
          List.countP_pos_iff.2 ⟨ev, hev', hP⟩
        exact (List.pairwise_cons.1 hpw).1 e' he' _ hsp (entry_count_pos cardIds hpos')
      have hone := entry_count_le_one cardIds (hnd e (List.mem_cons_self _ _)) p q
      omega
    · have hz : ((upairs e.2).filterMap (pairFn cardIds)).countP
          (fun ev => ev = (p, q) ∨ ev = (q, p)) = 0 := by omega
      have ht := ih (fun e' he' => hnd e' (List.mem_cons_of_mem _ he'))
        (List.pairwise_cons.1 hpw).2
      omega

theorem sessionEvents_count_le (cardIds : List String) (s : SortingSession)
    (hnd : (s.placements.map CardPlacement.cardId).Nodup) (p q : Nat) :
    (sessionEvents cardIds s).countP (fun ev => ev = (p, q) ∨ ev = (q, p)) ≤ 1 := by
  obtain ⟨h1, h2⟩ := catFold_good s.placements [] hnd (by simp) (by simp)
    List.Pairwise.nil
  rw [sessionEvents_def]
  exact flat_count_le_one cardIds p q (categoryCards s.placements) h1 h2

theorem countP_add_le_countP {α : Type} (P Q R : α → Bool) :
    ∀ (l : List α),
      (∀ a ∈ l, (P a = true → R a = true) ∧ (Q a = true → R a = true) ∧
        ¬(P a = true ∧ Q a = true)) →
      l.countP P + l.countP Q ≤ l.countP R := by
  intro l
  induction l with
  | nil => intro _; simp
  | cons a t ih =>
    intro himp
    simp only [List.countP_cons]
    have ha := himp a (List.mem_cons_self _ _)
    have ht := ih (fun x hx => himp x (List.mem_cons_of_mem _ hx))
    cases hP : P a <;> cases hQ : Q a <;> cases hR : R a <;>
      simp only [hP, hQ, hR] at ha ⊢ <;>
      simp_all <;> omega

theorem coOcc_comm (sessions : List SortingSession) (cardIds : List String)
    (p q : Nat) : coOcc sessions cardIds p q = coOcc sessions cardIds q p := by
  unfold coOcc
  exact congrArg List.sum (List.map_congr_left (fun s _ => Nat.add_comm _ _))

theorem coOcc_le_length (sessions : List SortingSession) (cardIds : List String)
    (hnd : ∀ s ∈ sessions, (s.placements.map CardPlacement.cardId).Nodup)
    (p q : Nat) (hpq : p ≠ q) :
    coOcc sessions cardIds p q ≤ sessions.length := by
  unfold coOcc
  have hbound : ∀ s ∈ sessions,
      (sessionEvents cardIds s).countP (fun e => e == (p, q)) +
      (sessionEvents cardIds s).countP (fun e => e == (q, p)) ≤ 1 := by
    intro s hs
    refine le_trans
      (countP_add_le_countP _ _ (fun ev => ev = (p, q) ∨ ev = (q, p)) _ ?_)
      (sessionEvents_count_le cardIds s (hnd s hs) p q)
    intro a _
    refine ⟨?_, ?_, ?_⟩
    · intro h; exact decide_eq_true (Or.inl (eq_of_beq h))
    · intro h; exact decide_eq_true (Or.inr (eq_of_beq h))
    · rintro ⟨h1, h2⟩
      have e1 := eq_of_beq h1
      have e2 := eq_of_beq h2
      rw [e1] at e2
      injection e2 with e3 e4
      exact hpq e3
  have := List.sum_le_card_nsmul (sessions.map (fun s =>
    (sessionEvents cardIds s).countP (fun e => e == (p, q)) +
    (sessionEvents cardIds s).countP (fun e => e == (q, p)))) 1 ?_
  · simpa using this
  · intro x hx
    obtain ⟨s, hs, rfl⟩ := List.mem_map.1 hx
    exact hbound s hs

theorem simMatrix_length (sessions : List SortingSession) (cards : List Card) :
    (computeSimilarityMatrix sessions cards).matrix.length = cards.length := by
  show ((List.range cards.length).map _).length = _
  simp

theorem simMatrix_row_length (sessions : List SortingSession) (cards : List Card) :
    ∀ row ∈ (computeSimilarityMatrix sessions cards).matrix,
      row.length = cards.length := by
  intro row hrow
  obtain ⟨i, _, rfl⟩ := List.mem_map.1
    (show row ∈ (List.range cards.length).map (fun i =>
      (List.range cards.length).map (fun j =>
        if i = j then 1
        else if 0 < sessions.length then
          (coOcc sessions (cards.map Card.id) i j : ℚ) / (sessions.length : ℚ)
        else 0)) from hrow)
  simp

/-- C5: when every card has at most one placement per session, the similarity
matrix is square of side `cards.length`, symmetric, has diagonal exactly `1`,
and every entry lies in `[0, 1]`. -/
theorem similarity_matrix_invariants (sessions : List SortingSession)
    (cards : List Card)
    (hnd : ∀ s ∈ sessions, (s.placements.map CardPlacement.cardId).Nodup) :
    (computeSimilarityMatrix sessions cards).matrix.length = cards.length ∧
    (∀ row ∈ (computeSimilarityMatrix sessions cards).matrix,
      row.length = cards.length) ∧
    (∀ i < cards.length,
      mget (computeSimilarityMatrix sessions cards).matrix i i = 1) ∧
    (∀ i < cards.length, ∀ j < cards.length,
      mget (computeSimilarityMatrix sessions cards).matrix i j =
        mget (computeSimilarityMatrix sessions cards).matrix j i ∧
      0 ≤ mget (computeSimilarityMatrix sessions cards).matrix i j ∧
      mget (computeSimilarityMatrix sessions cards).matrix i j ≤ 1) := by
  refine ⟨simMatrix_length sessions cards, simMatrix_row_length sessions cards,
    ?_, ?_⟩
  · intro i hi
    rw [mget_simMatrix sessions cards hi hi, if_pos rfl]
  · intro i hi j hj
    rw [mget_simMatrix sessions cards hi hj, mget_simMatrix sessions cards hj hi]
    by_cases hij : i = j
    · subst hij
      simp
    · rw [if_neg hij, if_neg (Ne.symm hij)]
      by_cases hl : 0 < sessions.length
      · rw [if_pos hl, if_pos hl]
        have hsym : coOcc sessions (cards.map Card.id) i j =
            coOcc sessions (cards.map Card.id) j i := coOcc_comm _ _ _ _
        refine ⟨by rw [hsym], ?_, ?_⟩
        · exact div_nonneg (Nat.cast_nonneg _) (Nat.cast_nonneg _)
        · rw [div_le_one (by exact_mod_cast hl)]
          exact_mod_cast coOcc_le_length sessions (cards.map Card.id) hnd i j hij
      · rw [if_neg hl, if_neg hl]
        exact ⟨rfl, le_refl 0, by norm_num⟩

/-- Witness for C5 at a concrete study: one participant sorting two cards into
one category. -/
theorem similarity_matrix_invariants_witness :
    (∀ s ∈ c5Study, (s.placements.map CardPlacement.cardId).Nodup) ∧
    ((computeSimilarityMatrix c5Study c5Cards).matrix.length = c5Cards.length ∧
     (∀ row ∈ (computeSimilarityMatrix c5Study c5Cards).matrix,
       row.length = c5Cards.length) ∧
     (∀ i < c5Cards.length,
       mget (computeSimilarityMatrix c5Study c5Cards).matrix i i = 1) ∧
     (∀ i < c5Cards.length, ∀ j < c5Cards.length,
       mget (computeSimilarityMatrix c5Study c5Cards).matrix i j =
         mget (computeSimilarityMatrix c5Study c5Cards).matrix j i ∧
       0 ≤ mget (computeSimilarityMatrix c5Study c5Cards).matrix i j ∧
       mget (computeSimilarityMatrix c5Study c5Cards).matrix i j ≤ 1)) :=
  ⟨by decide, similarity_matrix_invariants c5Study c5Cards (by decide)⟩

theorem newKeys_not_mem :
    ∀ (pls : List CardPlacement) (ks : List String) {c : String},
      c ∈ newKeys pls ks → c ∉ ks := by
  intro pls
  induction pls with
  | nil => intro ks c h; cases h
  | cons p rest ih =>
    intro ks c h
    rw [show newKeys (p :: rest) ks = if p.categoryId ∈ ks then newKeys rest ks
      else p.categoryId :: newKeys rest (ks ++ [p.categoryId]) from rfl] at h
    split_ifs at h with hm
    · exact ih ks h
    · rcases List.mem_cons.1 h with rfl | h
      · exact hm
      · intro hks
        exact ih _ h (List.mem_append_left _ hks)

theorem newKeys_nodup :
    ∀ (pls : List CardPlacement) (ks : List String), (newKeys pls ks).Nodup := by
  intro pls
  induction pls with
  | nil => intro ks; exact List.nodup_nil
  | cons p rest ih =>
    intro ks
    rw [show newKeys (p :: rest) ks = if p.categoryId ∈ ks then newKeys rest ks
      else p.categoryId :: newKeys rest (ks ++ [p.categoryId]) from rfl]
    split_ifs with hm
    · exact ih ks
    · refine List.nodup_cons.2 ⟨?_, ih _⟩
      intro hc
      exact newKeys_not_mem rest _ hc
        (List.mem_append_right _ (List.mem_singleton.2 rfl))

theorem newKeys_of_cat :
    ∀ (pls : List CardPlacement) (ks : List String) {p : CardPlacement},
      p ∈ pls → p.categoryId ∈ ks ∨ p.categoryId ∈ newKeys pls ks := by
  intro pls
  induction pls with
  | nil => intro ks p h; cases h
  | cons q rest ih =>
    intro ks p h
    rw [show newKeys (q :: rest) ks = if q.categoryId ∈ ks then newKeys rest ks
      else q.categoryId :: newKeys rest (ks ++ [q.categoryId]) from rfl]
    by_cases hm : q.categoryId ∈ ks
    · rw [if_pos hm]
      rcases List.mem_cons.1 h with rfl | h
      · exact Or.inl hm
      · exact ih ks h
    · rw [if_neg hm]
      rcases List.mem_cons.1 h with rfl | h
      · exact Or.inr (List.mem_cons_self _ _)
      · rcases ih (ks ++ [q.categoryId]) h with h' | h'
        · rcases List.mem_append.1 h' with h'' | h''
          · exact Or.inl h''
          · rw [List.mem_singleton] at h''
            exact Or.inr (h'' ▸ List.mem_cons_self _ _)
        · exact Or.inr (List.mem_cons_of_mem _ h')

theorem newKeys_cat_exists :
    ∀ (pls : List CardPlacement) (ks : List String) {c : String},
      c ∈ newKeys pls ks → ∃ p ∈ pls, p.categoryId = c := by
  intro pls
  induction pls with
  | nil => intro ks c h; cases h
  | cons q rest ih =>
    intro ks c h
    rw [show newKeys (q :: rest) ks = if q.categoryId ∈ ks then newKeys rest ks
      else q.categoryId :: newKeys rest (ks ++ [q.categoryId]) from rfl] at h
    split_ifs at h with hm
    · obtain ⟨p, hp, hc⟩ := ih ks h
      exact ⟨p, List.mem_cons_of_mem _ hp, hc⟩
    · rcases List.mem_cons.1 h with rfl | h
      · exact ⟨q, List.mem_cons_self _ _, rfl⟩
      · obtain ⟨p, hp, hc⟩ := ih _ h
        exact ⟨p, List.mem_cons_of_mem _ hp, hc⟩

theorem catFold_closed :
    ∀ (pls : List CardPlacement) (m : List (String × List String)),
      (m.map Prod.fst).Nodup →
      pls.foldl catStep m =
        m.map (fun e => (e.1, valFor e.1 pls e.2)) ++
          (newKeys pls (m.map Prod.fst)).map (fun c => (c, valFor c pls [])) := by
  intro pls
  induction pls with
  | nil =>
    intro m _
    simp [newKeys, valFor]
  | cons p rest ih =>
    intro m hnd
    rw [List.foldl_cons]
    by_cases hc : p.categoryId ∈ m.map Prod.fst
    · have hstep : catStep m p = m.map (fun e =>
          if e.1 = p.categoryId then (e.1, addSet e.2 p.cardId) else e) :=
        upsert_of_mem_keys hnd hc
      have hkeys : ((m.map (fun e =>
          if e.1 = p.categoryId then (e.1, addSet e.2 p.cardId) else e)).map
            Prod.fst) = m.map Prod.fst := by
        rw [List.map_map]
        refine List.map_congr_left (fun e _ => ?_)
        by_cases h : e.1 = p.categoryId <;> simp [h]
      rw [hstep, ih _ (by rw [hkeys]; exact hnd), hkeys]
      have hnk : newKeys (p :: rest) (m.map Prod.fst) =
          newKeys rest (m.map Prod.fst) := by
        rw [show newKeys (p :: rest) (m.map Prod.fst) =
          if p.categoryId ∈ m.map Prod.fst then newKeys rest (m.map Prod.fst)
          else p.categoryId :: newKeys rest (m.map Prod.fst ++ [p.categoryId])
          from rfl, if_pos hc]
      rw [hnk, List.map_map]
      congr 1
      · refine List.map_congr_left (fun e he => ?_)
        simp only [Function.comp_apply]
        by_cases h : e.1 = p.categoryId
        · rw [if_pos h]
          show (e.1, valFor e.1 rest (addSet e.2 p.cardId)) =
            (e.1, valFor e.1 (p :: rest) e.2)
          rw [show valFor e.1 (p :: rest) e.2 = valFor e.1 rest
            (if p.categoryId = e.1 then addSet e.2 p.cardId else e.2) from rfl,
            if_pos h.symm]
        · rw [if_neg h]
          show (e.1, valFor e.1 rest e.2) = (e.1, valFor e.1 (p :: rest) e.2)
          rw [show valFor e.1 (p :: rest) e.2 = valFor e.1 rest
            (if p.categoryId = e.1 then addSet e.2 p.cardId else e.2) from rfl,
            if_neg (fun hh => h hh.symm)]
      · refine List.map_congr_left (fun c hcm => ?_)
        have hcne : c ≠ p.categoryId := fun hh =>
          newKeys_not_mem _ _ hcm (hh ▸ hc)
        show (c, valFor c rest []) = (c, valFor c (p :: rest) [])
        rw [show valFor c (p :: rest) [] = valFor c rest
          (if p.categoryId = c then addSet [] p.cardId else []) from rfl,
          if_neg (fun hh => hcne hh.symm)]
    · have hstep : catStep m p = m ++ [(p.categoryId, addSet [] p.cardId)] :=
        upsert_of_not_mem_keys hc
      have hkeys2 : (m ++ [(p.categoryId, addSet [] p.cardId)]).map Prod.fst =
          m.map Prod.fst ++ [p.categoryId] := by simp
      have hnd' : ((m ++ [(p.categoryId, addSet [] p.cardId)]).map
          Prod.fst).Nodup := by
        rw [hkeys2, List.nodup_append]
        refine ⟨hnd, List.nodup_singleton _, ?_⟩
        intro a ha hb
        rw [List.mem_singleton] at hb
        exact hc (hb ▸ ha)
      rw [hstep, ih _ hnd', hkeys2, List.map_append]
      have hnk : newKeys (p :: rest) (m.map Prod.fst) =
          p.categoryId :: newKeys rest (m.map Prod.fst ++ [p.categoryId]) := by
        rw [show newKeys (p :: rest) (m.map Prod.fst) =
          if p.categoryId ∈ m.map Prod.fst then newKeys rest (m.map Prod.fst)
          else p.categoryId :: newKeys rest (m.map Prod.fst ++ [p.categoryId])
          from rfl, if_neg hc]
      have hm : m.map (fun e => (e.1, valFor e.1 rest e.2)) =
          m.map (fun e => (e.1, valFor e.1 (p :: rest) e.2)) := by
        refine List.map_congr_left (fun e he => ?_)
        have hene : e.1 ≠ p.categoryId := fun hh =>
          hc (hh ▸ List.mem_map.2 ⟨e, he, rfl⟩)
        rw [show valFor e.1 (p :: rest) e.2 = valFor e.1 rest
          (if p.categoryId = e.1 then addSet e.2 p.cardId else e.2) from rfl,
          if_neg (fun hh => hene hh.symm)]
      have hhead : valFor p.categoryId (p :: rest) [] =
          valFor p.categoryId rest (addSet [] p.cardId) := by
        rw [show valFor p.categoryId (p :: rest) [] = valFor p.categoryId rest
          (if p.categoryId = p.categoryId then addSet [] p.cardId else [])
          from rfl, if_pos rfl]
      have htail : (newKeys rest (m.map Prod.fst ++ [p.categoryId])).map
            (fun c => (c, valFor c rest [])) =
          (newKeys rest (m.map Prod.fst ++ [p.categoryId])).map
            (fun c => (c, valFor c (p :: rest) [])) := by
        refine List.map_congr_left (fun c hcm => ?_)
        have hcne : c ≠ p.categoryId := fun hh =>
          newKeys_not_mem _ _ hcm
            (by rw [hh]; exact List.mem_append_right _ (List.mem_singleton.2 rfl))
        rw [show valFor c (p :: rest) [] = valFor c rest
          (if p.categoryId = c then addSet [] p.cardId else []) from rfl,
          if_neg (fun hh => hcne hh.symm)]
      rw [hm, hnk]
      simp only [List.map_cons, List.map_nil]
      rw [hhead, ← htail, List.append_assoc]
      rfl

theorem upairs_filter {α : Type} (Q : α → Bool) :
    ∀ l : List α, upairs (l.filter Q) =
      (upairs l).filter (fun ab => Q ab.1 && Q ab.2) := by
  intro l
  induction l with
  | nil => rfl
  | cons a t ih =>
    rw [List.filter_cons]
    cases hq : Q a
    · rw [if_neg (by simp)]
      rw [show upairs (a :: t) = t.map (fun y => (a, y)) ++ upairs t from rfl,
        List.filter_append, ih, List.filter_map]
      have hz : t.filter ((fun ab => Q ab.1 && Q ab.2) ∘ fun y => (a, y)) = [] := by
        rw [List.filter_eq_nil]
        intro y _
        simp [hq]
      rw [hz, List.map_nil, List.nil_append]
    · rw [if_pos (by simp)]
      rw [show upairs (a :: t.filter Q) =
        (t.filter Q).map (fun y => (a, y)) ++ upairs (t.filter Q) from rfl,
        show upairs (a :: t) = t.map (fun y => (a, y)) ++ upairs t from rfl,
        List.filter_append, ih, List.filter_map]
      congr 2
      refine List.filter_congr (fun y _ => ?_)
      simp [hq]

theorem filterMap_filter_of_none {α β : Type} (f : α → Option β) (Q : α → Bool)
    (h : ∀ a, Q a = false → f a = none) :
    ∀ l : List α, (l.filter Q).filterMap f = l.filterMap f := by
  intro l
  induction l with
  | nil => rfl
  | cons a t ih =>
    rw [List.filter_cons]
    cases hq : Q a
    · rw [if_neg (by simp), ih, List.filterMap_cons, h a hq]
    · rw [if_pos (by simp), List.filterMap_cons, List.filterMap_cons, ih]

theorem flatMap_filter_of_nil {α β : Type} (f : α → List β) (Q : α → Bool) :
    ∀ l : List α, (∀ a ∈ l, Q a = false → f a = []) →
      l.flatMap f = (l.filter Q).flatMap f := by
  intro l
  induction l with
  | nil => intro _; rfl
  | cons a t ih =>
    intro h
    rw [List.flatMap_cons, List.filter_cons]
    cases hq : Q a
    · rw [if_neg (by simp), h a (List.mem_cons_self _ _) hq, List.nil_append]
      exact ih (fun a ha hqa => h a (List.mem_cons_of_mem _ ha) hqa)
    · rw [if_pos (by simp), List.flatMap_cons,
        ih (fun a ha hqa => h a (List.mem_cons_of_mem _ ha) hqa)]

theorem filter_addSet_mem {ids : List String} {x : String} (hx : x ∈ ids)
    (b : List String) :
    (addSet b x).filter (fun y => y ∈ ids) =
      addSet (b.filter (fun y => y ∈ ids)) x := by
  unfold addSet
  by_cases hb : x ∈ b
  · rw [if_pos hb, if_pos (List.mem_filter.2 ⟨hb, decide_eq_true hx⟩)]
  · rw [if_neg hb, if_neg (fun hc => hb (List.mem_filter.1 hc).1),
      List.filter_append]
    congr 1
    simp [hx]

theorem filter_addSet_not_mem {ids : List String} {x : String} (hx : x ∉ ids)
    (b : List String) :
    (addSet b x).filter (fun y => y ∈ ids) = b.filter (fun y => y ∈ ids) := by
  unfold addSet
  by_cases hb : x ∈ b
  · rw [if_pos hb]
  · rw [if_neg hb, List.filter_append]
    simp [hx]

theorem valFor_filter (ids : List String) (c : String) :
    ∀ (pls : List CardPlacement) (b : List String),
      valFor c (pls.filter (fun p => p.cardId ∈ ids))
          (b.filter (fun y => y ∈ ids)) =
        (valFor c pls b).filter (fun y => y ∈ ids) := by
  intro pls
  induction pls with
  | nil => intro b; rfl
  | cons p rest ih =>
    intro b
    rw [List.filter_cons]
    by_cases hk : p.cardId ∈ ids
    · rw [if_pos (decide_eq_true hk)]
      by_cases hcat : p.categoryId = c
      · rw [show valFor c (p :: rest.filter (fun p => p.cardId ∈ ids))
            (b.filter (fun y => y ∈ ids)) =
          valFor c (rest.filter (fun p => p.cardId ∈ ids))
            (if p.categoryId = c then addSet (b.filter (fun y => y ∈ ids)) p.cardId
             else b.filter (fun y => y ∈ ids)) from rfl, if_pos hcat,
          ← filter_addSet_mem hk b, ih (addSet b p.cardId),
          show valFor c (p :: rest) b = valFor c rest
            (if p.categoryId = c then addSet b p.cardId else b) from rfl,
          if_pos hcat]
      · rw [show valFor c (p :: rest.filter (fun p => p.cardId ∈ ids))
            (b.filter (fun y => y ∈ ids)) =
          valFor c (rest.filter (fun p => p.cardId ∈ ids))
            (if p.categoryId = c then addSet (b.filter (fun y => y ∈ ids)) p.cardId
             else b.filter (fun y => y ∈ ids)) from rfl, if_neg hcat,
          ih b,
          show valFor c (p :: rest) b = valFor c rest
            (if p.categoryId = c then addSet b p.cardId else b) from rfl,
          if_neg hcat]
    · rw [if_neg (fun hc => hk (of_decide_eq_true hc))]
      by_cases hcat : p.categoryId = c
      · rw [show valFor c (p :: rest) b = valFor c rest
          (if p.categoryId = c then addSet b p.cardId else b) from rfl,
          if_pos hcat, ← ih (addSet b p.cardId), filter_addSet_not_mem hk b]
      · rw [show valFor c (p :: rest) b = valFor c rest
          (if p.categoryId = c then addSet b p.cardId else b) from rfl,
          if_neg hcat]
        exact ih b

theorem mem_valFor (c : String) :
    ∀ (pls : List CardPlacement) (b : List String) {y : String},
      y ∈ valFor c pls b → y ∈ b ∨ ∃ p ∈ pls, p.categoryId = c ∧ p.cardId = y := by
  intro pls
  induction pls with
  | nil => intro b y h; exact Or.inl h
  | cons p rest ih =>
    intro b y h
    rw [show valFor c (p :: rest) b = valFor c rest
      (if p.categoryId = c then addSet b p.cardId else b) from rfl] at h
    rcases ih _ h with h' | ⟨p', hp', hc', hy'⟩
    · split_ifs at h' with hcat
      · rcases mem_addSet.1 h' with h'' | rfl
        · exact Or.inl h''
        · exact Or.inr ⟨p, List.mem_cons_self _ _, hcat, rfl⟩
      · exact Or.inl h'
    · exact Or.inr ⟨p', List.mem_cons_of_mem _ hp', hc', hy'⟩

theorem categoryCards_closed (q : List CardPlacement) :
    categoryCards q = (newKeys q []).map (fun c => (c, valFor c q [])) := by
  rw [categoryCards_eq_foldl]
  have h := catFold_closed q [] (by simp)
  simpa using h

theorem sessionEvents_filter_perm (ids : List String) (s : SortingSession) :
    (sessionEvents ids (filterKnown ids s)).Perm (sessionEvents ids s) := by
  have hpl : (filterKnown ids s).placements =
      s.placements.filter (fun p => p.cardId ∈ ids) := rfl
  rw [sessionEvents_def, sessionEvents_def, hpl, categoryCards_closed,
    categoryCards_closed, List.flatMap_map, List.flatMap_map]
  have hfun : (fun a : String => (upairs (a, valFor a (s.placements.filter
        (fun p => p.cardId ∈ ids)) []).2).filterMap (pairFn ids)) =
      (fun a : String =>
        (upairs (a, valFor a s.placements []).2).filterMap (pairFn ids)) := by
    funext c
    simp only [Function.comp_apply]
    show (upairs (valFor c (s.placements.filter
        (fun p => p.cardId ∈ ids)) [])).filterMap (pairFn ids) =
      (upairs (valFor c s.placements [])).filterMap (pairFn ids)
    have h1 : valFor c (s.placements.filter (fun p => p.cardId ∈ ids)) [] =
        (valFor c s.placements []).filter (fun y => y ∈ ids) := by
      have := valFor_filter ids c s.placements []
      simpa using this
    rw [h1, upairs_filter]
    refine filterMap_filter_of_none _ _ (fun ab hab => ?_) _
    unfold pairFn
    exact if_neg (fun hcond => by simp [hcond.1, hcond.2] at hab)
  rw [hfun]
  refine List.Perm.symm ?_
  have hsub : ∀ c ∈ newKeys (s.placements.filter
      (fun p => p.cardId ∈ ids)) [], c ∈ newKeys s.placements [] := by
    intro c hcF
    obtain ⟨p, hp, hcat⟩ := newKeys_cat_exists _ _ hcF
    rcases newKeys_of_cat s.placements [] (List.mem_of_mem_filter hp) with h | h
    · cases h
    · exact hcat ▸ h
  have heq : (newKeys s.placements []).flatMap
      (fun a : String =>
        (upairs (a, valFor a s.placements []).2).filterMap (pairFn ids)) =
      ((newKeys s.placements []).filter (fun c =>
        c ∈ newKeys (s.placements.filter (fun p => p.cardId ∈ ids)) [])).flatMap
      (fun a : String =>
        (upairs (a, valFor a s.placements []).2).filterMap (pairFn ids)) := by
    refine flatMap_filter_of_nil _ _ _ (fun c hc hQ => ?_)
    have hcF : c ∉ newKeys (s.placements.filter
        (fun p => p.cardId ∈ ids)) [] := fun hm => by simp [hm] at hQ
    show (upairs (valFor c s.placements [])).filterMap (pairFn ids) = []
    refine List.filterMap_eq_nil_iff.2 (fun ab hab => ?_)
    have hunk : ∀ y ∈ valFor c s.placements [], y ∉ ids := by
      intro y hy hyin
      rcases mem_valFor c s.placements [] hy with h' | ⟨p, hp, hcat, hcard⟩
      · cases h'
      · have hpF : p ∈ s.placements.filter (fun p => p.cardId ∈ ids) :=
          List.mem_filter.2 ⟨hp, by rw [hcard]; exact decide_eq_true hyin⟩
        rcases newKeys_of_cat (s.placements.filter
            (fun p => p.cardId ∈ ids)) [] hpF with h'' | h''
        · cases h''
        · exact hcF (hcat ▸ h'')
    obtain ⟨u, w⟩ := ab
    obtain ⟨hu, hw⟩ := mem_of_mem_upairs hab
    unfold pairFn
    exact if_neg (fun hcond => hunk u hu hcond.1)
  rw [heq]
  refine List.Perm.flatMap_right _ ?_
  refine (List.perm_ext_iff_of_nodup
    ((newKeys_nodup s.placements []).filter _)
    (newKeys_nodup (s.placements.filter (fun p => p.cardId ∈ ids)) [])).2
    (fun c => ?_)
  constructor
  · intro hc
    exact of_decide_eq_true (List.mem_filter.1 hc).2
  · intro hc
    exact List.mem_filter.2 ⟨hsub c hc, decide_eq_true hc⟩

theorem coOcc_filter (ids : List String) (sessions : List SortingSession)
    (p q : Nat) :
    coOcc (sessions.map (filterKnown ids)) ids p q =
    coOcc sessions ids p q := by
  unfold coOcc
  rw [List.map_map]
  refine congrArg List.sum (List.map_congr_left (fun s _ => ?_))
  simp only [Function.comp_apply]
  have hp := sessionEvents_filter_perm ids s
  rw [hp.countP_eq, hp.countP_eq]

theorem unknown_placements_matrix (sessions : List SortingSession)
    (cards : List Card) :
    computeSimilarityMatrix (sessions.map (filterKnown (cards.map Card.id)))
      cards = computeSimilarityMatrix sessions cards := by
  simp only [computeSimilarityMatrix, List.length_map]
  congr 1
  refine List.map_congr_left (fun i _ => ?_)
  refine List.map_congr_left (fun j _ => ?_)
  rw [coOcc_filter]

theorem sessionEvents_component_ne (cardIds : List String) (s : SortingSession)
    {i : Nat} (hun : ∀ p ∈ s.placements, p.cardId ≠ cardIds.getD i "") :
    ∀ ev ∈ sessionEvents cardIds s, ev.1 ≠ i ∧ ev.2 ≠ i := by
  intro ev hev
  rw [sessionEvents_def] at hev
  obtain ⟨e, he, hev'⟩ := List.mem_flatMap.1 hev
  obtain ⟨ab, hab, hfa⟩ := List.mem_filterMap.1 hev'
  obtain ⟨u, w⟩ := ab
  obtain ⟨hu, hw⟩ := mem_of_mem_upairs hab
  have hprovu : ∃ p ∈ s.placements, p.cardId = u := by
    rcases catFold_values_from s.placements [] e he u hu with ⟨e', he', _⟩ | h
    · cases he'
    · exact h
  have hprovw : ∃ p ∈ s.placements, p.cardId = w := by
    rcases catFold_values_from s.placements [] e he w hw with ⟨e', he', _⟩ | h
    · cases he'
    · exact h
  unfold pairFn at hfa
  split_ifs at hfa with hm
  injection hfa with hfa
  subst hfa
  constructor
  · intro hc
    have hc' : cardIds.indexOf u = i := hc
    have he1 : cardIds.getD i "" = u := by
      rw [← hc', getD_of_lt _ _ (List.indexOf_lt_length.2 hm.1)]
      exact List.getElem_indexOf _
    obtain ⟨p, hp, hpu⟩ := hprovu
    exact hun p hp (by rw [hpu, he1])
  · intro hc
    have hc' : cardIds.indexOf w = i := hc
    have he2 : cardIds.getD i "" = w := by
      rw [← hc', getD_of_lt _ _ (List.indexOf_lt_length.2 hm.2)]
      exact List.getElem_indexOf _
    obtain ⟨p, hp, hpw⟩ := hprovw
    exact hun p hp (by rw [hpw, he2])

theorem coOcc_unref (sessions : List SortingSession) (cardIds : List String)
    {i : Nat}
    (hun : ∀ s ∈ sessions, ∀ p ∈ s.placements, p.cardId ≠ cardIds.getD i "")
    (j : Nat) : coOcc sessions cardIds i j = 0 := by
  unfold coOcc
  refine List.sum_eq_zero (fun x hx => ?_)
  obtain ⟨s, hs, rfl⟩ := List.mem_map.1 hx
  have hcomp := sessionEvents_component_ne cardIds s (hun s hs)
  have h1 : (sessionEvents cardIds s).countP (fun e => e == (i, j)) = 0 := by
    rw [List.countP_eq_zero]
    intro ev hev hb
    exact (hcomp ev hev).1 (by rw [eq_of_beq hb])
  have h2 : (sessionEvents cardIds s).countP (fun e => e == (j, i)) = 0 := by
    rw [List.countP_eq_zero]
    intro ev hev hb
    exact (hcomp ev hev).2 (by rw [eq_of_beq hb])
  omega

/-- C9: `computeSimilarityMatrix` silently ignores placements whose `cardId`
is not among the cards: filtering them out of every session leaves the
returned matrix unchanged; and a card referenced by no placement keeps its row
and column but has similarity `0` to every other card. -/
theorem unknown_placements_ignored (sessions : List SortingSession)
    (cards : List Card) :
    computeSimilarityMatrix (sessions.map (filterKnown (cards.map Card.id)))
        cards =
      computeSimilarityMatrix sessions cards ∧
    ∀ i < cards.length,
      (∀ s ∈ sessions, ∀ p ∈ s.placements,
        p.cardId ≠ (cards.map Card.id).getD i "") →
      ∀ j < cards.length, j ≠ i →
        mget (computeSimilarityMatrix sessions cards).matrix i j = 0 ∧
        mget (computeSimilarityMatrix sessions cards).matrix j i = 0 := by
  refine ⟨unknown_placements_matrix sessions cards, ?_⟩
  intro i hi hun j hj hji
  have hz1 : coOcc sessions (cards.map Card.id) i j = 0 := coOcc_unref _ _ hun j
  have hz2 : coOcc sessions (cards.map Card.id) j i = 0 := by
    rw [coOcc_comm]
    exact hz1
  constructor
  · rw [mget_simMatrix sessions cards hi hj, if_neg (fun h => hji h.symm)]
    split_ifs with hl
    · rw [hz1]
      simp
    · rfl
  · rw [mget_simMatrix sessions cards hj hi, if_neg hji]
    split_ifs with hl
    · rw [hz2]
      simp
    · rfl

/-- Witness for C9: the unknown placement of `"x"` can be removed without
changing the matrix, and the unreferenced card `"b"` (index 1) has similarity
`0` with card `"a"` (index 0) in both directions. -/
theorem unknown_placements_ignored_witness :
    computeSimilarityMatrix (c9Study.map (filterKnown (c9Cards.map Card.id)))
        c9Cards =
      computeSimilarityMatrix c9Study c9Cards ∧
    (mget (computeSimilarityMatrix c9Study c9Cards).matrix 1 0 = 0 ∧
     mget (computeSimilarityMatrix c9Study c9Cards).matrix 0 1 = 0) :=
  ⟨(unknown_placements_ignored c9Study c9Cards).1,
   (unknown_placements_ignored c9Study c9Cards).2 1 (by decide) (by decide) 0
     (by decide) (by decide)⟩

end CardSort
